import Mathlib

/-!
# Handshake channel of the max coprocessor demo

Shallow embedding of `SYNC1`, `SYNC0` and `mymax` from
`msp430de/software/maxmspdemo/main.c` (the copy in
`msp430de_sim/sim/rtl_sim/src-c/syncdemo/main.c` is line for line the same
for these three functions).

The program talks to four memory-mapped registers.  The coprocessor behind
them is hardware that is not part of the C sources, so it is a parameter of
the embedding: a `Copro σ` says how the hardware reacts to each bus access.
Every bus access of the program is recorded in a trace.

`unsigned` is 16 bits wide on the MSP430; the register table in the
source gives DIN and DOUT 16 bits and CIN and COUT 1 bit.  The widths are
applied where the program touches the bus.
-/

namespace Handshake

/-- A bus access of the program: a write to DIN or CIN, a read of DOUT or COUT,
with the value that was written or read. -/
inductive Event where
  | wDIN (v : Nat)
  | wCIN (v : Nat)
  | rDOUT (v : Nat)
  | rCOUT (v : Nat)
  deriving DecidableEq, Repr

/-- The hardware side of the four registers: its reaction to a write of DIN and
of CIN, and the value delivered (with the follow-up state) by a read of DOUT and
of COUT.  A read may change the state, which is how the passing of time between
two polls is expressed. -/
structure Copro (σ : Type) where
  onDIN : Nat → σ → σ
  onCIN : Nat → σ → σ
  rdDOUT : σ → Nat × σ
  rdCOUT : σ → Nat × σ

/-- The state the program runs against: the coprocessor state and the bus
accesses made since reset, oldest first. -/
structure World (σ : Type) where
  env : σ
  trace : List Event
  deriving DecidableEq, Repr

/-- What is known of a call after a bounded observation: it has returned a
value, or it is still inside a poll loop. -/
inductive Outcome (σ α : Type) where
  | returned (val : α) (w : World σ)
  | spinning (w : World σ)
  deriving DecidableEq, Repr

/-- The world in which an observation ended. -/
def Outcome.world {σ α : Type} : Outcome σ α → World σ
  | .returned _ w => w
  | .spinning w => w

/-- The statement `DIN = v;` (16-bit register). -/
def wrDIN {σ : Type} (M : Copro σ) (v : Nat) (w : World σ) : World σ :=
  { env := M.onDIN (v % 65536) w.env, trace := w.trace ++ [Event.wDIN (v % 65536)] }

/-- The statement `CIN = v;`.  The register table of the source gives CIN one bit
(`Cin 1-bit write-only`). -/
def wrCIN {σ : Type} (M : Copro σ) (v : Nat) (w : World σ) : World σ :=
  { env := M.onCIN (v % 2) w.env, trace := w.trace ++ [Event.wCIN (v % 2)] }

/-- The expression `DOUT` (16-bit register): the value read and the world after
the read. -/
def rdDOUT {σ : Type} (M : Copro σ) (w : World σ) : Nat × World σ :=
  ((M.rdDOUT w.env).1 % 65536,
   { env := (M.rdDOUT w.env).2,
     trace := w.trace ++ [Event.rDOUT ((M.rdDOUT w.env).1 % 65536)] })

/-- The expression `COUT`: the value read and the world after the read.  The
register table of the source gives COUT one bit (`Cout 1-bit read-only`), so a
read delivers 0 or 1. -/
def rdCOUT {σ : Type} (M : Copro σ) (w : World σ) : Nat × World σ :=
  ((M.rdCOUT w.env).1 % 2,
   { env := (M.rdCOUT w.env).2,
     trace := w.trace ++ [Event.rCOUT ((M.rdCOUT w.env).1 % 2)] })

/-- The loop `while (COUT != v) ;`, observed for at most `fuel` reads of COUT. -/
def pollCOUT {σ : Type} (M : Copro σ) (v : Nat) : Nat → World σ → Outcome σ Unit
  | 0, w => .spinning w
  | fuel + 1, w =>
    if (rdCOUT M w).1 ≠ v then pollCOUT M v fuel (rdCOUT M w).2
    else .returned () (rdCOUT M w).2

/-- Source: `void SYNC1() { CIN = 1; while (COUT != 1) ; }`. -/
def SYNC1 {σ : Type} (M : Copro σ) (fuel : Nat) (w : World σ) : Outcome σ Unit :=
  pollCOUT M 1 fuel (wrCIN M 1 w)

/-- Source: `void SYNC0() { CIN = 0; while (COUT != 0) ; }`. -/
def SYNC0 {σ : Type} (M : Copro σ) (fuel : Nat) (w : World σ) : Outcome σ Unit :=
  pollCOUT M 0 fuel (wrCIN M 0 w)

/-- Source: `unsigned mymax(unsigned a, unsigned b)`.  Each of the four poll loops
is observed for at most `fuel` reads of COUT; the same bound is used for all four,
and it is the only bound in the model. -/
def mymax {σ : Type} (M : Copro σ) (fuel : Nat) (a b : Nat) (w : World σ) : Outcome σ Nat :=
  match SYNC1 M fuel (wrDIN M a w) with
  | .spinning w1 => .spinning w1
  | .returned _ w1 =>
    match SYNC0 M fuel (wrDIN M b w1) with
    | .spinning w2 => .spinning w2
    | .returned _ w2 =>
      match SYNC1 M fuel w2 with
      | .spinning w3 => .spinning w3
      | .returned _ w3 =>
        match SYNC0 M fuel (rdDOUT M w3).2 with
        | .spinning w4 => .spinning w4
        | .returned _ w4 => .returned (rdDOUT M w3).1 w4

/-! ## Reading a trace -/

/-- The value the CIN register holds after the bus accesses `t`, when it held
`c` before them. -/
def cinAfter (c : Nat) (t : List Event) : Nat :=
  t.foldl (fun x e => match e with | .wCIN v => v | _ => x) c

/-- The value most recently seen on COUT after the bus accesses `t`, when COUT
held `o` before them. -/
def coutAfter (o : Nat) (t : List Event) : Nat :=
  t.foldl (fun x e => match e with | .rCOUT v => v | _ => x) o

/-- The CIN register of a world; reset leaves it at 0. -/
def World.cin {σ : Type} (w : World σ) : Nat := cinAfter 0 w.trace

/-- The last value seen on COUT in a world; reset leaves COUT at 0. -/
def World.cout {σ : Type} (w : World σ) : Nat := coutAfter 0 w.trace

/-- The idle state of the channel: CIN = 0 and COUT = 0. -/
def Idle {σ : Type} (w : World σ) : Prop := w.cin = 0 ∧ w.cout = 0

instance {σ : Type} (w : World σ) : Decidable (Idle w) := by
  unfold Idle; infer_instance

/-- The values written to CIN, in order. -/
def cinWrites (t : List Event) : List Nat :=
  t.filterMap (fun e => match e with | .wCIN v => some v | _ => none)

/-- The values read from COUT, in order. -/
def coutReads (t : List Event) : List Nat :=
  t.filterMap (fun e => match e with | .rCOUT v => some v | _ => none)

/-- The values read from DOUT, in order. -/
def doutReads (t : List Event) : List Nat :=
  t.filterMap (fun e => match e with | .rDOUT v => some v | _ => none)

/-- The writes among the bus accesses, in order. -/
def busWrites (t : List Event) : List Event :=
  t.filter (fun e => match e with | .wDIN _ => true | .wCIN _ => true | _ => false)

/-- The number of times a signal changes value along `vs`, when it had the
value `x` before. -/
def toggles (x : Nat) : List Nat → Nat
  | [] => 0
  | v :: vs => (if v = x then 0 else 1) + toggles v vs

/-! ## A handshake-following coprocessor -/

/-- The four states of the channel. -/
inductive Phase where
  | idle
  | sentA
  | sentB
  | resultReady
  deriving DecidableEq, Repr

/-- State of the handshake-following coprocessor: its registers, the two latched
operands, and the latency bookkeeping (`wait`: polls for which the pending
acknowledgement is still withheld; `lat`: latencies of the coming phases). -/
structure HS where
  phase : Phase
  din : Nat
  cin : Nat
  dout : Nat
  cout : Nat
  opA : Nat
  opB : Nat
  wait : Nat
  lat : List Nat
  deriving DecidableEq, Repr

/-- Modelled from the spec: the state machine IDLE, SENT_A, SENT_B, RESULT_READY,
IDLE of the coprocessor, which is hardware and not among the C sources.  The
coprocessor latches DIN as operand A when it leaves IDLE and as operand B when it
leaves SENT_A, and presents `f A B` on the 16-bit DOUT when it enters
RESULT_READY. -/
def advance (f : Nat → Nat → Nat) (s : HS) : HS :=
  match s.phase with
  | .idle => { s with phase := .sentA, opA := s.din }
  | .sentA => { s with phase := .sentB, opB := s.din }
  | .sentB => { s with phase := .resultReady, dout := f s.opA s.opB % 65536 }
  | .resultReady => { s with phase := .idle }

/-- Modelled from the spec: a coprocessor that follows the handshake and computes
`f`.  A change of CIN moves it to the next state of its state machine.  COUT
mirrors CIN once the latency of the phase has elapsed: the acknowledgement is
withheld for `wait` polls, during which COUT keeps its old value. -/
def handshake (f : Nat → Nat → Nat) : Copro HS where
  onDIN := fun v s => { s with din := v }
  onCIN := fun v s =>
    if v = s.cin then s
    else { advance f s with cin := v, wait := s.lat.headD 0, lat := s.lat.tail }
  rdDOUT := fun s => (s.dout, s)
  rdCOUT := fun s =>
    if s.wait = 0 then (s.cin, { s with cout := s.cin })
    else (s.cout, { s with wait := s.wait - 1 })

/-- Modelled from the spec: the demo coprocessor, which presents max(A, B). -/
def maxCopro : Copro HS := handshake (fun x y => max x y)

/-- Modelled from the spec: a coprocessor configured to echo the first operand. -/
def echoCopro : Copro HS := handshake (fun x _ => x)

/-- The coprocessor in its idle state: waiting for operand A, CIN and COUT at 0,
no acknowledgement pending. -/
def HS.isIdle (s : HS) : Prop :=
  s.phase = .idle ∧ s.cin = 0 ∧ s.cout = 0 ∧ s.wait = 0

instance (s : HS) : Decidable s.isIdle := by
  unfold HS.isIdle; infer_instance

/-- The coprocessor after reset, with the latencies `lat` ahead of it. -/
def hsReset (lat : List Nat) : HS :=
  { phase := .idle, din := 0, cin := 0, dout := 0, cout := 0, opA := 0, opB := 0,
    wait := 0, lat := lat }

/-- The four registers DIN, CIN, DOUT, COUT of the coprocessor. -/
def HS.regs (s : HS) : Nat × Nat × Nat × Nat := (s.din, s.cin, s.dout, s.cout)

/-- Modelled from the spec: a coprocessor in the injectable "never respond" mode.
It ignores every write and COUT stays at 0. -/
def deadCopro : Copro Unit where
  onDIN := fun _ s => s
  onCIN := fun _ s => s
  rdDOUT := fun s => (0, s)
  rdCOUT := fun s => (0, s)

/-- State of a coprocessor placed behind a latency stage: the coprocessor itself,
the value COUT showed last (`held`), the number of polls for which the pending
acknowledgement is still withheld (`wait`), and the latencies of the coming
phases (`lat`). -/
structure Lagged (σ : Type) where
  base : σ
  held : Nat
  wait : Nat
  lat : List Nat

/-- Modelled from the spec: arbitrary finite latency in front of any coprocessor.
Writes and reads of DOUT reach the coprocessor at once.  After a write to CIN the
next `wait` reads of COUT still deliver the value COUT showed before; the reads
after those reach the coprocessor. -/
def lagged {σ : Type} (M : Copro σ) : Copro (Lagged σ) where
  onDIN := fun v s => { s with base := M.onDIN v s.base }
  onCIN := fun v s =>
    { s with base := M.onCIN v s.base, wait := s.lat.headD 0, lat := s.lat.tail }
  rdDOUT := fun s => ((M.rdDOUT s.base).1, { s with base := (M.rdDOUT s.base).2 })
  rdCOUT := fun s =>
    if s.wait = 0 then
      ((M.rdCOUT s.base).1, { s with base := (M.rdCOUT s.base).2, held := (M.rdCOUT s.base).1 })
    else (s.held, { s with wait := s.wait - 1 })

/-- The same coprocessor with the value on DOUT replaced by `d`. -/
def withDOUT {σ : Type} (M : Copro σ) (d : σ → Nat) : Copro σ :=
  { M with rdDOUT := fun s => (d s, (M.rdDOUT s).2) }

/-- The coprocessor state after `k` reads of COUT. -/
def afterReads {σ : Type} (M : Copro σ) : Nat → σ → σ
  | 0, s => s
  | k + 1, s => afterReads M k (M.rdCOUT s).2

/-- The value delivered by the read of COUT that follows `k` earlier reads. -/
def coutAt {σ : Type} (M : Copro σ) (s : σ) (k : Nat) : Nat :=
  (M.rdCOUT (afterReads M k s)).1 % 2

/-- The bus accesses of a completed call: operands `a`, `b`, result `r`, and
`k1` to `k4` unanswered polls in the four phases. -/
def callTrace (a b r k1 k2 k3 k4 : Nat) : List Event :=
  [Event.wDIN a, Event.wCIN 1] ++ List.replicate k1 (Event.rCOUT 0) ++
  [Event.rCOUT 1, Event.wDIN b, Event.wCIN 0] ++ List.replicate k2 (Event.rCOUT 1) ++
  [Event.rCOUT 0, Event.wCIN 1] ++ List.replicate k3 (Event.rCOUT 0) ++
  [Event.rCOUT 1, Event.rDOUT r, Event.wCIN 0] ++ List.replicate k4 (Event.rCOUT 1) ++
  [Event.rCOUT 0]

/-- The handshake order along the bus accesses `t`, with CIN at `c` and COUT
last seen at `o` before them: every write to CIN finds COUT equal to the value
CIN holds, and writes the complement of that value. -/
def ordered (c o : Nat) : List Event → Prop
  | [] => True
  | .wCIN v :: t => o = c ∧ v = 1 - c ∧ ordered v o t
  | .rCOUT v :: t => ordered c v t
  | .wDIN _ :: t => ordered c o t
  | .rDOUT _ :: t => ordered c o t

/-- The distance between the two sides along the bus accesses `t`: with `i`
toggles of CIN and `j` toggles of COUT so far, at every point CIN is level with
COUT or one toggle ahead of it. -/
def inStep (c o i j : Nat) : List Event → Prop
  | [] => j ≤ i ∧ i ≤ j + 1
  | .wCIN v :: t => (j ≤ i ∧ i ≤ j + 1) ∧ inStep v o (i + (if v = c then 0 else 1)) j t
  | .rCOUT v :: t => (j ≤ i ∧ i ≤ j + 1) ∧ inStep c v i (j + (if v = o then 0 else 1)) t
  | .wDIN _ :: t => (j ≤ i ∧ i ≤ j + 1) ∧ inStep c o i j t
  | .rDOUT _ :: t => (j ≤ i ∧ i ≤ j + 1) ∧ inStep c o i j t

/-- The largest latency in a list. -/
def maxLat (l : List Nat) : Nat := l.foldr max 0

/-- The value the poll loop of phase `i` waits for. -/
def awaited (i : Nat) : Nat := if i % 2 = 0 then 1 else 0

/-- The call `mymax(a, b)` started in world `w` enters the poll loop of phase `i`
(0 to 3) with the coprocessor in state `s`. -/
def PollStart {σ : Type} (M : Copro σ) (a b : Nat) (w : World σ) (i : Nat) (s : σ) : Prop :=
  match i with
  | 0 => s = (wrCIN M 1 (wrDIN M a w)).env
  | 1 => ∃ n w1, SYNC1 M n (wrDIN M a w) = .returned () w1 ∧
      s = (wrCIN M 0 (wrDIN M b w1)).env
  | 2 => ∃ n w1 w2, SYNC1 M n (wrDIN M a w) = .returned () w1 ∧
      SYNC0 M n (wrDIN M b w1) = .returned () w2 ∧ s = (wrCIN M 1 w2).env
  | 3 => ∃ n w1 w2 w3, SYNC1 M n (wrDIN M a w) = .returned () w1 ∧
      SYNC0 M n (wrDIN M b w1) = .returned () w2 ∧ SYNC1 M n w2 = .returned () w3 ∧
      s = (wrCIN M 0 (rdDOUT M w3).2).env
  | _ => False

/-! ## The poll loop -/

theorem rdCOUT_lt {σ : Type} (M : Copro σ) (w : World σ) : (rdCOUT M w).1 < 2 := by
  simp only [rdCOUT]; omega

theorem pollCOUT_returned {σ : Type} (M : Copro σ) (v : Nat) (hv : v < 2) :
    ∀ (n : Nat) (w w1 : World σ) (u : Unit), pollCOUT M v n w = .returned u w1 →
      ∃ k, k < n ∧
        w1.trace = w.trace ++ List.replicate k (Event.rCOUT (1 - v)) ++ [Event.rCOUT v] ∧
        w1.env = afterReads M (k + 1) w.env ∧ coutAt M w.env k = v := by
  intro n
  induction n with
  | zero => intro w w1 u h; simp [pollCOUT] at h
  | succ n ih =>
    intro w w1 u h
    rw [pollCOUT] at h
    split at h
    · rename_i hne
      obtain ⟨k, hk, ht, he, hc⟩ := ih _ _ _ h
      have hlt := rdCOUT_lt M w
      have hval : (M.rdCOUT w.env).1 % 2 = 1 - v := by
        simp only [rdCOUT] at hne hlt; omega
      refine ⟨k + 1, by omega, ?_, ?_, ?_⟩
      · rw [ht]; simp [rdCOUT, List.replicate_succ, hval]
      · rw [he]; simp [rdCOUT, afterReads]
      · simpa [coutAt, afterReads, rdCOUT] using hc
    · rename_i heq
      simp only [ne_eq, not_not] at heq
      injection h with _ hw
      subst hw
      refine ⟨0, by omega, ?_, ?_, ?_⟩
      · simp [rdCOUT] at heq ⊢; exact heq
      · simp [rdCOUT, afterReads]
      · simpa [coutAt, afterReads, rdCOUT] using heq

theorem pollCOUT_spinning {σ : Type} (M : Copro σ) (v : Nat) (hv : v < 2) :
    ∀ (n : Nat) (w w1 : World σ), pollCOUT M v n w = .spinning w1 →
      w1.trace = w.trace ++ List.replicate n (Event.rCOUT (1 - v)) := by
  intro n
  induction n with
  | zero => intro w w1 h; simp [pollCOUT] at h; simp [h]
  | succ n ih =>
    intro w w1 h
    rw [pollCOUT] at h
    split at h
    · rename_i hne
      have ht := ih _ _ h
      have hlt := rdCOUT_lt M w
      have hval : (M.rdCOUT w.env).1 % 2 = 1 - v := by
        simp only [rdCOUT] at hne hlt; omega
      rw [ht]; simp [rdCOUT, List.replicate_succ, hval]
    · simp at h

theorem pollCOUT_mono {σ : Type} (M : Copro σ) (v : Nat) :
    ∀ (n m : Nat) (w w1 : World σ) (u : Unit), pollCOUT M v n w = .returned u w1 → n ≤ m →
      pollCOUT M v m w = .returned u w1 := by
  intro n
  induction n with
  | zero => intro m w w1 u h; simp [pollCOUT] at h
  | succ n ih =>
    intro m w w1 u h hm
    obtain ⟨m, rfl⟩ : ∃ j, m = j + 1 := ⟨m - 1, by omega⟩
    rw [pollCOUT] at h ⊢
    split
    · rename_i hne
      rw [if_pos hne] at h
      exact ih m _ _ _ h (by omega)
    · rename_i heq
      rw [if_neg heq] at h
      exact h

theorem pollCOUT_det {σ : Type} (M : Copro σ) (v : Nat) (n m : Nat) (w w1 w2 : World σ)
    (u1 u2 : Unit) (h1 : pollCOUT M v n w = .returned u1 w1)
    (h2 : pollCOUT M v m w = .returned u2 w2) : w1 = w2 := by
  rcases Nat.le_total n m with hnm | hnm
  · have h := pollCOUT_mono M v n m w w1 u1 h1 hnm
    rw [h] at h2; injection h2
  · have h := pollCOUT_mono M v m n w w2 u2 h2 hnm
    rw [h] at h1; injection h1 with _ hw; exact hw.symm

theorem pollCOUT_silent {σ : Type} (M : Copro σ) (v : Nat) :
    ∀ (n : Nat) (w : World σ), (∀ k, coutAt M w.env k ≠ v) →
      ∃ w1, pollCOUT M v n w = .spinning w1 := by
  intro n
  induction n with
  | zero => intro w _; exact ⟨w, rfl⟩
  | succ n ih =>
    intro w hs
    rw [pollCOUT]
    have h0 : (rdCOUT M w).1 ≠ v := by simpa [coutAt, afterReads, rdCOUT] using hs 0
    rw [if_pos h0]
    apply ih
    intro k
    simpa [coutAt, afterReads, rdCOUT] using hs (k + 1)

theorem pollCOUT_acked {σ : Type} (M : Copro σ) (v : Nat) :
    ∀ (k : Nat) (w : World σ), coutAt M w.env k = v →
      ∀ n, k < n → ∃ w1, pollCOUT M v n w = .returned () w1 := by
  intro k
  induction k with
  | zero =>
    intro w hk n hn
    obtain ⟨n, rfl⟩ : ∃ j, n = j + 1 := ⟨n - 1, by omega⟩
    rw [pollCOUT]
    split
    · rename_i hne
      exact absurd (by simpa [coutAt, afterReads, rdCOUT] using hk) hne
    · exact ⟨_, rfl⟩
  | succ k ih =>
    intro w hk n hn
    obtain ⟨n, rfl⟩ : ∃ j, n = j + 1 := ⟨n - 1, by omega⟩
    rw [pollCOUT]
    split
    · apply ih
      · simpa [coutAt, afterReads, rdCOUT] using hk
      · omega
    · exact ⟨_, rfl⟩

/-- A poll loop started in two worlds with the same coprocessor state returns in
both or in neither, and leaves the coprocessor in the same state. -/
theorem pollCOUT_env {σ : Type} (M : Copro σ) (v : Nat) :
    ∀ (n : Nat) (w x w1 : World σ) (u : Unit), w.env = x.env →
      pollCOUT M v n w = .returned u w1 →
      ∃ x1, pollCOUT M v n x = .returned u x1 ∧ x1.env = w1.env := by
  intro n
  induction n with
  | zero => intro w x w1 u _ h; simp [pollCOUT] at h
  | succ n ih =>
    intro w x w1 u he h
    rw [pollCOUT] at h ⊢
    have hv : (rdCOUT M x).1 = (rdCOUT M w).1 := by simp [rdCOUT, he]
    have hs : (rdCOUT M w).2.env = (rdCOUT M x).2.env := by simp [rdCOUT, he]
    rw [hv]
    split
    · rename_i hne
      rw [if_pos hne] at h
      exact ih _ _ _ _ hs h
    · rename_i heq
      rw [if_neg heq] at h
      injection h with _ hw
      subst hw
      exact ⟨_, rfl, hs.symm⟩

/-! ## Structure of a call -/

theorem mymax_returned_iff {σ : Type} (M : Copro σ) (n a b r : Nat) (w w4 : World σ) :
    mymax M n a b w = .returned r w4 ↔
      ∃ w1 w2 w3, SYNC1 M n (wrDIN M a w) = .returned () w1 ∧
        SYNC0 M n (wrDIN M b w1) = .returned () w2 ∧
        SYNC1 M n w2 = .returned () w3 ∧
        SYNC0 M n (rdDOUT M w3).2 = .returned () w4 ∧ r = (rdDOUT M w3).1 := by
  unfold mymax
  constructor
  · intro h
    split at h
    · simp at h
    · rename_i u1 w1 h1
      split at h
      · simp at h
      · rename_i u2 w2 h2
        split at h
        · simp at h
        · rename_i u3 w3 h3
          split at h
          · simp at h
          · rename_i u4 w4x h4
            injection h with hr hw
            subst hw
            exact ⟨w1, w2, w3, h1, h2, h3, h4, hr.symm⟩
  · rintro ⟨w1, w2, w3, h1, h2, h3, h4, hr⟩
    simp only [h1, h2, h3, h4, hr]

theorem mymax_returned_trace {σ : Type} (M : Copro σ) (n a b r : Nat) (w w4 : World σ)
    (h : mymax M n a b w = .returned r w4) :
    ∃ k1 k2 k3 k4,
      w4.trace = w.trace ++ callTrace (a % 65536) (b % 65536) r k1 k2 k3 k4 := by
  obtain ⟨w1, w2, w3, h1, h2, h3, h4, hr⟩ := (mymax_returned_iff M n a b r w w4).1 h
  obtain ⟨k1, -, t1, -, -⟩ := pollCOUT_returned M 1 (by omega) _ _ _ _ h1
  obtain ⟨k2, -, t2, -, -⟩ := pollCOUT_returned M 0 (by omega) _ _ _ _ h2
  obtain ⟨k3, -, t3, -, -⟩ := pollCOUT_returned M 1 (by omega) _ _ _ _ h3
  obtain ⟨k4, -, t4, -, -⟩ := pollCOUT_returned M 0 (by omega) _ _ _ _ h4
  refine ⟨k1, k2, k3, k4, ?_⟩
  rw [t4]
  simp only [rdDOUT, wrCIN, wrDIN] at t1 t2 t3 hr ⊢
  rw [t3, t2, t1, hr]
  simp [callTrace]

/-! ## Reading the trace of a call -/

theorem cinWrites_append (s t : List Event) : cinWrites (s ++ t) = cinWrites s ++ cinWrites t := by
  simp [cinWrites]

theorem coutReads_append (s t : List Event) : coutReads (s ++ t) = coutReads s ++ coutReads t := by
  simp [coutReads]

theorem doutReads_append (s t : List Event) : doutReads (s ++ t) = doutReads s ++ doutReads t := by
  simp [doutReads]

theorem busWrites_append (s t : List Event) : busWrites (s ++ t) = busWrites s ++ busWrites t := by
  simp [busWrites]

theorem cinAfter_append (c : Nat) (s t : List Event) :
    cinAfter c (s ++ t) = cinAfter (cinAfter c s) t := by
  simp [cinAfter]

theorem coutAfter_append (o : Nat) (s t : List Event) :
    coutAfter o (s ++ t) = coutAfter (coutAfter o s) t := by
  simp [coutAfter]

theorem cinWrites_polls (k x : Nat) : cinWrites (List.replicate k (Event.rCOUT x)) = [] := by
  induction k with
  | zero => rfl
  | succ k ih => simp [List.replicate_succ, cinWrites]

theorem doutReads_polls (k x : Nat) : doutReads (List.replicate k (Event.rCOUT x)) = [] := by
  induction k with
  | zero => rfl
  | succ k ih => simp [List.replicate_succ, doutReads]

theorem busWrites_polls (k x : Nat) : busWrites (List.replicate k (Event.rCOUT x)) = [] := by
  induction k with
  | zero => rfl
  | succ k ih => simp [List.replicate_succ, busWrites]

theorem cinAfter_nil (c : Nat) : cinAfter c [] = c := rfl

theorem cinAfter_cons (c : Nat) (e : Event) (t : List Event) :
    cinAfter c (e :: t) = cinAfter (match e with | .wCIN v => v | _ => c) t := rfl

theorem coutAfter_nil (o : Nat) : coutAfter o [] = o := rfl

theorem coutAfter_cons (o : Nat) (e : Event) (t : List Event) :
    coutAfter o (e :: t) = coutAfter (match e with | .rCOUT v => v | _ => o) t := rfl

theorem cinAfter_polls (c k x : Nat) : cinAfter c (List.replicate k (Event.rCOUT x)) = c := by
  induction k with
  | zero => rfl
  | succ k ih => simpa [List.replicate_succ, cinAfter] using ih

theorem cinWrites_callTrace (a b r k1 k2 k3 k4 : Nat) :
    cinWrites (callTrace a b r k1 k2 k3 k4) = [1, 0, 1, 0] := by
  simp [callTrace, cinWrites_append, cinWrites_polls]
  simp [cinWrites]

theorem doutReads_callTrace (a b r k1 k2 k3 k4 : Nat) :
    doutReads (callTrace a b r k1 k2 k3 k4) = [r] := by
  simp [callTrace, doutReads_append, doutReads_polls]
  simp [doutReads]

theorem busWrites_callTrace (a b r k1 k2 k3 k4 : Nat) :
    busWrites (callTrace a b r k1 k2 k3 k4) =
      [Event.wDIN a, Event.wCIN 1, Event.wDIN b, Event.wCIN 0, Event.wCIN 1, Event.wCIN 0] := by
  simp [callTrace, busWrites_append, busWrites_polls]
  simp [busWrites]

theorem cinAfter_callTrace (c a b r k1 k2 k3 k4 : Nat) :
    cinAfter c (callTrace a b r k1 k2 k3 k4) = 0 := by
  simp [callTrace, cinAfter_append, cinAfter_polls, cinAfter_cons, cinAfter_nil]

theorem coutAfter_callTrace (o a b r k1 k2 k3 k4 : Nat) :
    coutAfter o (callTrace a b r k1 k2 k3 k4) = 0 := by
  simp [callTrace, coutAfter_append, coutAfter_cons, coutAfter_nil]

/-! ## The handshake-following coprocessor -/

theorem hs_poll (f : Nat → Nat → Nat) (v : Nat) (hv : v < 2) :
    ∀ (l n : Nat) (s : HS) (t : List Event), s.wait = l → l < n → s.cin = v →
      s.cout = 1 - v →
      pollCOUT (handshake f) v n ⟨s, t⟩ =
        .returned () ⟨{ s with wait := 0, cout := v },
          t ++ List.replicate l (Event.rCOUT (1 - v)) ++ [Event.rCOUT v]⟩ := by
  intro l
  induction l with
  | zero =>
    intro n s t hw hn hc ho
    obtain ⟨n, rfl⟩ : ∃ j, n = j + 1 := ⟨n - 1, by omega⟩
    have hm : v % 2 = v := Nat.mod_eq_of_lt hv
    simp [pollCOUT, rdCOUT, handshake, hw, hc, hm]
  | succ l ih =>
    intro n s t hw hn hc ho
    obtain ⟨n, rfl⟩ : ∃ j, n = j + 1 := ⟨n - 1, by omega⟩
    have hm : (1 - v) % 2 = 1 - v := Nat.mod_eq_of_lt (by omega)
    have hne : 1 - v ≠ v := by omega
    have hstep := ih n { s with wait := l } (t ++ [Event.rCOUT (1 - v)]) rfl (by omega) hc ho
    rw [pollCOUT]
    have hr : rdCOUT (handshake f) ⟨s, t⟩ =
        (1 - v, ⟨{ s with wait := l }, t ++ [Event.rCOUT (1 - v)]⟩) := by
      simp [rdCOUT, handshake, hw, ho, hm]
    rw [hr, if_pos hne, hstep]
    simp [List.replicate_succ]

theorem hs_sync (f : Nat → Nat → Nat) (v : Nat) (hv : v < 2) (n : Nat) (s : HS)
    (t : List Event) (hc : s.cin = 1 - v) (ho : s.cout = 1 - v) (hn : s.lat.headD 0 < n) :
    pollCOUT (handshake f) v n (wrCIN (handshake f) v ⟨s, t⟩) =
      .returned () ⟨{ advance f s with cin := v, cout := v, wait := 0, lat := s.lat.tail },
        t ++ [Event.wCIN v] ++ List.replicate (s.lat.headD 0) (Event.rCOUT (1 - v)) ++
          [Event.rCOUT v]⟩ := by
  have hm : v % 2 = v := Nat.mod_eq_of_lt hv
  have hne : ¬ v = s.cin := by omega
  have hw : wrCIN (handshake f) v ⟨s, t⟩ =
      ⟨{ advance f s with cin := v, wait := s.lat.headD 0, lat := s.lat.tail },
        t ++ [Event.wCIN v]⟩ := by
    simp [wrCIN, handshake, hm, hne]
  rw [hw, hs_poll f v hv (s.lat.headD 0) n _ _ rfl hn rfl]
  · have hadv : (advance f s).cout = s.cout := by
      unfold advance; split <;> rfl
    simp [hadv, ho]

theorem headD_le_maxLat (l : List Nat) : l.headD 0 ≤ maxLat l := by
  cases l with
  | nil => simp [maxLat]
  | cons x xs => simp [maxLat]

theorem maxLat_tail_le (l : List Nat) : maxLat l.tail ≤ maxLat l := by
  cases l with
  | nil => simp [maxLat]
  | cons x xs => simp [maxLat]

/-- A call against the handshake-following coprocessor, entered in the idle state
and observed for more polls than the largest latency. -/
theorem hs_call (f : Nat → Nat → Nat) (s : HS) (t : List Event) (a b n : Nat)
    (hs : s.isIdle) (hn : maxLat s.lat < n) :
    mymax (handshake f) n a b ⟨s, t⟩ =
      .returned (f (a % 65536) (b % 65536) % 65536)
        ⟨{ phase := .idle, din := b % 65536, cin := 0,
           dout := f (a % 65536) (b % 65536) % 65536, cout := 0,
           opA := a % 65536, opB := b % 65536, wait := 0,
           lat := s.lat.tail.tail.tail.tail },
         t ++ callTrace (a % 65536) (b % 65536) (f (a % 65536) (b % 65536) % 65536)
           (s.lat.headD 0) (s.lat.tail.headD 0) (s.lat.tail.tail.headD 0)
           (s.lat.tail.tail.tail.headD 0)⟩ := by
  obtain ⟨ph, din, cin, dout, cout, opA, opB, wait, lat⟩ := s
  obtain ⟨h1, h2, h3, h4⟩ := hs
  simp only at h1 h2 h3 h4 hn
  subst h1 h2 h3 h4
  have l1 : lat.headD 0 < n := lt_of_le_of_lt (headD_le_maxLat lat) hn
  have m2 : maxLat lat.tail < n := lt_of_le_of_lt (maxLat_tail_le lat) hn
  have l2 : lat.tail.headD 0 < n := lt_of_le_of_lt (headD_le_maxLat _) m2
  have m3 : maxLat lat.tail.tail < n := lt_of_le_of_lt (maxLat_tail_le _) m2
  have l3 : lat.tail.tail.headD 0 < n := lt_of_le_of_lt (headD_le_maxLat _) m3
  have m4 : maxLat lat.tail.tail.tail < n := lt_of_le_of_lt (maxLat_tail_le _) m3
  have l4 : lat.tail.tail.tail.headD 0 < n := lt_of_le_of_lt (headD_le_maxLat _) m4
  have e1 : SYNC1 (handshake f) n (wrDIN (handshake f) a
      ⟨{ phase := .idle, din := din, cin := 0, dout := dout, cout := 0, opA := opA,
          opB := opB, wait := 0, lat := lat },
        t⟩) =
      .returned ()
      ⟨{ phase := .sentA, din := a % 65536, cin := 1, dout := dout, cout := 1,
          opA := a % 65536, opB := opB, wait := 0, lat := lat.tail },
        t ++ [Event.wDIN (a % 65536)] ++ [Event.wCIN 1] ++
        List.replicate (lat.headD 0) (Event.rCOUT 0) ++ [Event.rCOUT 1]⟩ :=
    hs_sync f 1 (by omega) n _ _ rfl rfl l1
  have e2 : SYNC0 (handshake f) n (wrDIN (handshake f) b
      ⟨{ phase := .sentA, din := a % 65536, cin := 1, dout := dout, cout := 1,
          opA := a % 65536, opB := opB, wait := 0, lat := lat.tail },
        t ++ [Event.wDIN (a % 65536)] ++ [Event.wCIN 1] ++
        List.replicate (lat.headD 0) (Event.rCOUT 0) ++ [Event.rCOUT 1]⟩) =
      .returned ()
      ⟨{ phase := .sentB, din := b % 65536, cin := 0, dout := dout, cout := 0,
          opA := a % 65536, opB := b % 65536, wait := 0, lat := lat.tail.tail },
        t ++ [Event.wDIN (a % 65536)] ++ [Event.wCIN 1] ++
        List.replicate (lat.headD 0) (Event.rCOUT 0) ++ [Event.rCOUT 1] ++
        [Event.wDIN (b % 65536)] ++ [Event.wCIN 0] ++
        List.replicate (lat.tail.headD 0) (Event.rCOUT 1) ++ [Event.rCOUT 0]⟩ :=
    hs_sync f 0 (by omega) n _ _ rfl rfl l2
  have e3 : SYNC1 (handshake f) n
      ⟨{ phase := .sentB, din := b % 65536, cin := 0, dout := dout, cout := 0,
          opA := a % 65536, opB := b % 65536, wait := 0, lat := lat.tail.tail },
        t ++ [Event.wDIN (a % 65536)] ++ [Event.wCIN 1] ++
        List.replicate (lat.headD 0) (Event.rCOUT 0) ++ [Event.rCOUT 1] ++
        [Event.wDIN (b % 65536)] ++ [Event.wCIN 0] ++
        List.replicate (lat.tail.headD 0) (Event.rCOUT 1) ++ [Event.rCOUT 0]⟩ =
      .returned ()
      ⟨{ phase := .resultReady, din := b % 65536, cin := 1,
          dout := f (a % 65536) (b % 65536) % 65536, cout := 1,
          opA := a % 65536, opB := b % 65536, wait := 0, lat := lat.tail.tail.tail },
        t ++ [Event.wDIN (a % 65536)] ++ [Event.wCIN 1] ++
        List.replicate (lat.headD 0) (Event.rCOUT 0) ++ [Event.rCOUT 1] ++
        [Event.wDIN (b % 65536)] ++ [Event.wCIN 0] ++
        List.replicate (lat.tail.headD 0) (Event.rCOUT 1) ++ [Event.rCOUT 0] ++
        [Event.wCIN 1] ++ List.replicate (lat.tail.tail.headD 0) (Event.rCOUT 0) ++
        [Event.rCOUT 1]⟩ :=
    hs_sync f 1 (by omega) n _ _ rfl rfl l3
  have e4 : SYNC0 (handshake f) n (rdDOUT (handshake f)
      ⟨{ phase := .resultReady, din := b % 65536, cin := 1,
          dout := f (a % 65536) (b % 65536) % 65536, cout := 1,
          opA := a % 65536, opB := b % 65536, wait := 0, lat := lat.tail.tail.tail },
        t ++ [Event.wDIN (a % 65536)] ++ [Event.wCIN 1] ++
        List.replicate (lat.headD 0) (Event.rCOUT 0) ++ [Event.rCOUT 1] ++
        [Event.wDIN (b % 65536)] ++ [Event.wCIN 0] ++
        List.replicate (lat.tail.headD 0) (Event.rCOUT 1) ++ [Event.rCOUT 0] ++
        [Event.wCIN 1] ++ List.replicate (lat.tail.tail.headD 0) (Event.rCOUT 0) ++
        [Event.rCOUT 1]⟩).2 =
      .returned ()
      ⟨{ phase := .idle, din := b % 65536, cin := 0,
          dout := f (a % 65536) (b % 65536) % 65536, cout := 0,
          opA := a % 65536, opB := b % 65536, wait := 0, lat := lat.tail.tail.tail.tail },
        t ++ callTrace (a % 65536) (b % 65536) (f (a % 65536) (b % 65536) % 65536)
          (lat.headD 0) (lat.tail.headD 0) (lat.tail.tail.headD 0)
          (lat.tail.tail.tail.headD 0)⟩ := by
    have h := hs_sync f 0 (by omega) n
      { phase := .resultReady, din := b % 65536, cin := 1,
          dout := f (a % 65536) (b % 65536) % 65536, cout := 1,
          opA := a % 65536, opB := b % 65536, wait := 0, lat := lat.tail.tail.tail }
      (t ++ [Event.wDIN (a % 65536)] ++ [Event.wCIN 1] ++
        List.replicate (lat.headD 0) (Event.rCOUT 0) ++ [Event.rCOUT 1] ++
        [Event.wDIN (b % 65536)] ++ [Event.wCIN 0] ++
        List.replicate (lat.tail.headD 0) (Event.rCOUT 1) ++ [Event.rCOUT 0] ++
        [Event.wCIN 1] ++ List.replicate (lat.tail.tail.headD 0) (Event.rCOUT 0) ++
        [Event.rCOUT 1] ++ [Event.rDOUT (f (a % 65536) (b % 65536) % 65536)]) rfl rfl l4
    refine Eq.trans (Eq.trans ?_ h) ?_
    · simp [SYNC0, rdDOUT, handshake]
    · simp [advance, callTrace]
  exact (mymax_returned_iff _ _ _ _ _ _ _).2 ⟨_, _, _, e1, e2, e3, e4, by simp [rdDOUT, handshake]⟩

/-! ## The handshake order -/

theorem ordered_polls (c x k : Nat) (t : List Event) :
    ordered c x (List.replicate k (Event.rCOUT x) ++ t) ↔ ordered c x t := by
  induction k with
  | zero => simp
  | succ k ih => simpa [List.replicate_succ, ordered] using ih

theorem inStep_bound (c o i j : Nat) (t : List Event) (h : inStep c o i j t) :
    j ≤ i ∧ i ≤ j + 1 := by
  cases t with
  | nil => exact h
  | cons e t => cases e <;> exact h.1

theorem inStep_polls (c x i j k : Nat) (t : List Event) :
    inStep c x i j (List.replicate k (Event.rCOUT x) ++ t) ↔ inStep c x i j t := by
  induction k with
  | zero => simp
  | succ k ih =>
    have hc : inStep c x i j (List.replicate (k + 1) (Event.rCOUT x) ++ t) ↔
        (j ≤ i ∧ i ≤ j + 1) ∧ inStep c x i j (List.replicate k (Event.rCOUT x) ++ t) := by
      simp [List.replicate_succ, inStep]
    rw [hc, ih]
    constructor
    · exact fun h => h.2
    · exact fun h => ⟨inStep_bound _ _ _ _ _ h, h⟩

/-- Where a write to CIN stands in a trace that keeps the handshake order, COUT
was last seen at the value CIN holds, and the write is the complement. -/
theorem ordered_split (p : List Event) :
    ∀ (c o v : Nat) (q : List Event), ordered c o (p ++ Event.wCIN v :: q) →
      coutAfter o p = cinAfter c p ∧ v = 1 - cinAfter c p := by
  induction p with
  | nil => intro c o v q h; exact ⟨h.1, h.2.1⟩
  | cons e p ih =>
    intro c o v q h
    cases e with
    | wDIN x => exact ih c o v q h
    | wCIN x => exact ih x o v q h.2.2
    | rDOUT x => exact ih c o v q h
    | rCOUT x => exact ih c x v q h

/-- At every point of a trace that stays in step, CIN has toggled as often as
COUT or once more. -/
theorem inStep_split (p : List Event) :
    ∀ (c o i j : Nat) (q : List Event), inStep c o i j (p ++ q) →
      j + toggles o (coutReads p) ≤ i + toggles c (cinWrites p) ∧
      i + toggles c (cinWrites p) ≤ j + toggles o (coutReads p) + 1 := by
  induction p with
  | nil =>
    intro c o i j q h
    have hb := inStep_bound _ _ _ _ _ h
    simpa [cinWrites, coutReads, toggles] using hb
  | cons e p ih =>
    intro c o i j q h
    cases e with
    | wDIN x =>
      have := ih c o i j q h.2
      simpa [cinWrites, coutReads] using this
    | wCIN x =>
      have := ih x o _ j q h.2
      simp only [cinWrites, coutReads, List.filterMap_cons, toggles] at this ⊢
      omega
    | rDOUT x =>
      have := ih c o i j q h.2
      simpa [cinWrites, coutReads] using this
    | rCOUT x =>
      have := ih c x i _ q h.2
      simp only [cinWrites, coutReads, List.filterMap_cons, toggles] at this ⊢
      omega

theorem ordered_polls_end (c x k : Nat) : ordered c x (List.replicate k (Event.rCOUT x)) := by
  have h := (ordered_polls c x k []).2 trivial
  simpa using h

theorem inStep_polls_end (c x i j k : Nat) (h : j ≤ i ∧ i ≤ j + 1) :
    inStep c x i j (List.replicate k (Event.rCOUT x)) := by
  have h := (inStep_polls c x i j k []).2 h
  simpa using h

/-- Whatever the coprocessor does and however long the call is observed, the bus
accesses of a call entered with CIN = 0 and COUT = 0 keep the handshake order and
stay in step. -/
theorem mymax_trace_ok {σ : Type} (M : Copro σ) (n a b : Nat) (w : World σ) :
    ∃ evs, (mymax M n a b w).world.trace = w.trace ++ evs ∧ ordered 0 0 evs ∧
      inStep 0 0 0 0 evs ∧ ∃ rest, evs = Event.wDIN (a % 65536) :: Event.wCIN 1 :: rest := by
  unfold mymax
  split
  · rename_i w1 h1
    have t1 := pollCOUT_spinning M 1 (by omega) _ _ _ h1
    refine ⟨[Event.wDIN (a % 65536), Event.wCIN 1] ++ List.replicate n (Event.rCOUT 0), ?_, ?_, ?_, ⟨_, rfl⟩⟩
    · simp [Outcome.world, t1, wrCIN, wrDIN]
    · simpa [ordered] using ordered_polls_end 1 0 n
    · simpa [inStep] using inStep_polls_end 1 0 1 0 n (by omega)
  · rename_i u1 w1 h1
    obtain ⟨k1, -, t1, -, -⟩ := pollCOUT_returned M 1 (by omega) _ _ _ _ h1
    split
    · rename_i w2 h2
      have t2 := pollCOUT_spinning M 0 (by omega) _ _ _ h2
      refine ⟨[Event.wDIN (a % 65536), Event.wCIN 1] ++ List.replicate k1 (Event.rCOUT 0) ++
        [Event.rCOUT 1, Event.wDIN (b % 65536), Event.wCIN 0] ++
        List.replicate n (Event.rCOUT 1), ?_, ?_, ?_, ⟨_, rfl⟩⟩
      · simp [Outcome.world, t2, t1, wrCIN, wrDIN]
      · simpa [ordered, ordered_polls] using ordered_polls_end 0 1 n
      · simpa [inStep, inStep_polls] using inStep_polls_end 0 1 2 1 n (by omega)
    · rename_i u2 w2 h2
      obtain ⟨k2, -, t2, -, -⟩ := pollCOUT_returned M 0 (by omega) _ _ _ _ h2
      split
      · rename_i w3 h3
        have t3 := pollCOUT_spinning M 1 (by omega) _ _ _ h3
        refine ⟨[Event.wDIN (a % 65536), Event.wCIN 1] ++ List.replicate k1 (Event.rCOUT 0) ++
          [Event.rCOUT 1, Event.wDIN (b % 65536), Event.wCIN 0] ++
          List.replicate k2 (Event.rCOUT 1) ++ [Event.rCOUT 0, Event.wCIN 1] ++
          List.replicate n (Event.rCOUT 0), ?_, ?_, ?_, ⟨_, rfl⟩⟩
        · simp [Outcome.world, t3, t2, t1, wrCIN, wrDIN]
        · simpa [ordered, ordered_polls] using ordered_polls_end 1 0 n
        · simpa [inStep, inStep_polls] using inStep_polls_end 1 0 3 2 n (by omega)
      · rename_i u3 w3 h3
        obtain ⟨k3, -, t3, -, -⟩ := pollCOUT_returned M 1 (by omega) _ _ _ _ h3
        split
        · rename_i w4 h4
          have t4 := pollCOUT_spinning M 0 (by omega) _ _ _ h4
          refine ⟨[Event.wDIN (a % 65536), Event.wCIN 1] ++
            List.replicate k1 (Event.rCOUT 0) ++
            [Event.rCOUT 1, Event.wDIN (b % 65536), Event.wCIN 0] ++
            List.replicate k2 (Event.rCOUT 1) ++ [Event.rCOUT 0, Event.wCIN 1] ++
            List.replicate k3 (Event.rCOUT 0) ++
            [Event.rCOUT 1, Event.rDOUT (rdDOUT M w3).1, Event.wCIN 0] ++
            List.replicate n (Event.rCOUT 1), ?_, ?_, ?_, ⟨_, rfl⟩⟩
          · simp [Outcome.world, t4, t3, t2, t1, wrCIN, wrDIN, rdDOUT]
          · simpa [ordered, ordered_polls] using ordered_polls_end 0 1 n
          · simpa [inStep, inStep_polls] using inStep_polls_end 0 1 4 3 n (by omega)
        · rename_i u4 w4 h4
          obtain ⟨k4, -, t4, -, -⟩ := pollCOUT_returned M 0 (by omega) _ _ _ _ h4
          refine ⟨callTrace (a % 65536) (b % 65536) (rdDOUT M w3).1 k1 k2 k3 k4, ?_, ?_, ?_, ⟨_, rfl⟩⟩
          · simp [Outcome.world, t4, t3, t2, t1, wrCIN, wrDIN, rdDOUT, callTrace]
          · simp [callTrace, ordered, ordered_polls]
          · simp [callTrace, inStep, inStep_polls]

/-- The same call for operands and results that fit the 16-bit registers. -/
theorem hs_call16 (f : Nat → Nat → Nat) (s : HS) (t : List Event) (a b n : Nat)
    (hs : s.isIdle) (hn : maxLat s.lat < n) (ha : a < 65536) (hb : b < 65536)
    (hf : f a b < 65536) :
    mymax (handshake f) n a b ⟨s, t⟩ =
      .returned (f a b)
        ⟨{ phase := .idle, din := b, cin := 0, dout := f a b, cout := 0,
           opA := a, opB := b, wait := 0, lat := s.lat.tail.tail.tail.tail },
         t ++ callTrace a b (f a b)
           (s.lat.headD 0) (s.lat.tail.headD 0) (s.lat.tail.tail.headD 0)
           (s.lat.tail.tail.tail.headD 0)⟩ := by
  have h := hs_call f s t a b n hs hn
  rw [Nat.mod_eq_of_lt ha, Nat.mod_eq_of_lt hb, Nat.mod_eq_of_lt hf] at h
  exact h

/-! ## Calls that block and calls that return -/

theorem mymax_spinning1 {σ : Type} (M : Copro σ) (n a b : Nat) (w x : World σ)
    (h1 : SYNC1 M n (wrDIN M a w) = .spinning x) : mymax M n a b w = .spinning x := by
  unfold mymax; simp only [h1]

theorem mymax_spinning2 {σ : Type} (M : Copro σ) (n a b : Nat) (w w1 x : World σ)
    (h1 : SYNC1 M n (wrDIN M a w) = .returned () w1)
    (h2 : SYNC0 M n (wrDIN M b w1) = .spinning x) : mymax M n a b w = .spinning x := by
  unfold mymax; simp only [h1, h2]

theorem mymax_spinning3 {σ : Type} (M : Copro σ) (n a b : Nat) (w w1 w2 x : World σ)
    (h1 : SYNC1 M n (wrDIN M a w) = .returned () w1)
    (h2 : SYNC0 M n (wrDIN M b w1) = .returned () w2)
    (h3 : SYNC1 M n w2 = .spinning x) : mymax M n a b w = .spinning x := by
  unfold mymax; simp only [h1, h2, h3]

theorem mymax_spinning4 {σ : Type} (M : Copro σ) (n a b : Nat) (w w1 w2 w3 x : World σ)
    (h1 : SYNC1 M n (wrDIN M a w) = .returned () w1)
    (h2 : SYNC0 M n (wrDIN M b w1) = .returned () w2)
    (h3 : SYNC1 M n w2 = .returned () w3)
    (h4 : SYNC0 M n (rdDOUT M w3).2 = .spinning x) : mymax M n a b w = .spinning x := by
  unfold mymax; simp only [h1, h2, h3, h4]

/-- A call that is still spinning under the bound `n` has made at least `n` bus
accesses. -/
theorem mymax_spinning_steps {σ : Type} (M : Copro σ) (n a b : Nat) (w x : World σ)
    (h : mymax M n a b w = .spinning x) : w.trace.length + n ≤ x.trace.length := by
  unfold mymax at h
  split at h
  · rename_i w1 h1
    injection h with hx
    subst hx
    have t1 := pollCOUT_spinning M 1 (by omega) _ _ _ h1
    rw [t1]; simp [wrCIN, wrDIN]; omega
  · rename_i u1 w1 h1
    obtain ⟨k1, -, t1, -, -⟩ := pollCOUT_returned M 1 (by omega) _ _ _ _ h1
    split at h
    · rename_i w2 h2
      injection h with hx
      subst hx
      have t2 := pollCOUT_spinning M 0 (by omega) _ _ _ h2
      rw [t2]; simp [wrCIN, wrDIN, t1]; omega
    · rename_i u2 w2 h2
      obtain ⟨k2, -, t2, -, -⟩ := pollCOUT_returned M 0 (by omega) _ _ _ _ h2
      split at h
      · rename_i w3 h3
        injection h with hx
        subst hx
        have t3 := pollCOUT_spinning M 1 (by omega) _ _ _ h3
        rw [t3]; simp [wrCIN, wrDIN, t2, t1]; omega
      · rename_i u3 w3 h3
        obtain ⟨k3, -, t3, -, -⟩ := pollCOUT_returned M 1 (by omega) _ _ _ _ h3
        split at h
        · rename_i w4 h4
          injection h with hx
          subst hx
          have t4 := pollCOUT_spinning M 0 (by omega) _ _ _ h4
          rw [t4]; simp [wrCIN, wrDIN, rdDOUT, t3, t2, t1]; omega
        · simp at h

/-- A poll loop that is observed either is still spinning or has returned the
world it returns under any other observation. -/
theorem pollCOUT_cases {σ : Type} (M : Copro σ) (v n m : Nat) (w w1 : World σ)
    (h : pollCOUT M v m w = .returned () w1) :
    (∃ x, pollCOUT M v n w = .spinning x) ∨ pollCOUT M v n w = .returned () w1 := by
  cases hn : pollCOUT M v n w with
  | spinning x => exact Or.inl ⟨x, rfl⟩
  | returned u x =>
    have := pollCOUT_det M v n m w x w1 u () hn h
    subst this
    exact Or.inr rfl

theorem pollStart_form {σ : Type} (M : Copro σ) (a b : Nat) (w : World σ) (i : Nat) (s : σ)
    (h : PollStart M a b w i s) : ∃ s0, s = M.onCIN (awaited i) s0 := by
  rcases i with _ | _ | _ | _ | i
  · exact ⟨_, h⟩
  · obtain ⟨n, w1, -, hs⟩ := h; exact ⟨_, hs⟩
  · obtain ⟨n, w1, w2, -, -, hs⟩ := h; exact ⟨_, hs⟩
  · obtain ⟨n, w1, w2, w3, -, -, -, hs⟩ := h; exact ⟨_, hs⟩
  · exact absurd h (by simp [PollStart])

theorem hs_coutAt (f : Nat → Nat → Nat) :
    ∀ (k : Nat) (s : HS), s.wait = k → coutAt (handshake f) s k = s.cin % 2 := by
  intro k
  induction k with
  | zero => intro s hw; simp [coutAt, afterReads, handshake, hw]
  | succ k ih =>
    intro s hw
    have h := ih { s with wait := k } rfl
    simpa [coutAt, afterReads, handshake, hw] using h

theorem hs_responsive (f : Nat → Nat → Nat) (v : Nat) (hv : v < 2) (s : HS) :
    ∃ k, coutAt (handshake f) ((handshake f).onCIN v s) k = v := by
  refine ⟨((handshake f).onCIN v s).wait, ?_⟩
  rw [hs_coutAt f _ _ rfl]
  have hc : ((handshake f).onCIN v s).cin = v := by
    simp only [handshake]
    split
    · rename_i h; exact h.symm
    · rfl
  rw [hc, Nat.mod_eq_of_lt hv]

theorem awaited_lt (i : Nat) : awaited i < 2 := by
  unfold awaited; split <;> omega

theorem dead_silent : ∀ k, coutAt deadCopro () k ≠ 1 := by
  intro k
  simp [coutAt, deadCopro]

theorem pollCOUT_withDOUT {σ : Type} (M : Copro σ) (d : σ → Nat) (v : Nat) :
    ∀ (n : Nat) (w : World σ), pollCOUT (withDOUT M d) v n w = pollCOUT M v n w := by
  intro n
  induction n with
  | zero => intro w; rfl
  | succ n ih =>
    intro w
    rw [pollCOUT, pollCOUT]
    have hr : rdCOUT (withDOUT M d) w = rdCOUT M w := rfl
    rw [hr, ih]

/-! ## Latency in front of any coprocessor -/

theorem lag_stale {σ : Type} (M : Copro σ) (v : Nat) :
    ∀ (l m : Nat) (s : σ) (h : Nat) (lat : List Nat) (t : List Event), h % 2 ≠ v →
      ∃ t1, pollCOUT (lagged M) v (l + m) ⟨⟨s, h, l, lat⟩, t⟩ =
        pollCOUT (lagged M) v m ⟨⟨s, h, 0, lat⟩, t1⟩ := by
  intro l
  induction l with
  | zero => intro m s h lat t _; exact ⟨t, by simp⟩
  | succ l ih =>
    intro m s h lat t hne
    obtain ⟨t1, e⟩ := ih m s h lat (t ++ [Event.rCOUT (h % 2)]) hne
    refine ⟨t1, ?_⟩
    have hfuel : l + 1 + m = (l + m) + 1 := by omega
    rw [hfuel, pollCOUT]
    have hr : rdCOUT (lagged M) ⟨⟨s, h, l + 1, lat⟩, t⟩ =
        (h % 2, ⟨⟨s, h, l, lat⟩, t ++ [Event.rCOUT (h % 2)]⟩) := by
      simp [rdCOUT, lagged]
    rw [hr, if_pos hne, e]

theorem lag_pass {σ : Type} (M : Copro σ) (v : Nat) :
    ∀ (n : Nat) (s : σ) (t0 : List Event) (w : World σ),
      pollCOUT M v n ⟨s, t0⟩ = .returned () w →
      ∃ hv, hv % 2 = v ∧ ∀ (h : Nat) (lat : List Nat) (t : List Event),
        ∃ t1, pollCOUT (lagged M) v n ⟨⟨s, h, 0, lat⟩, t⟩ =
          .returned () ⟨⟨w.env, hv, 0, lat⟩, t1⟩ := by
  intro n
  induction n with
  | zero => intro s t0 w h; simp [pollCOUT] at h
  | succ n ih =>
    intro s t0 w hb
    rw [pollCOUT] at hb
    by_cases hne : (M.rdCOUT s).1 % 2 ≠ v
    · have hb1 : (rdCOUT M ⟨s, t0⟩).1 ≠ v := hne
      rw [if_pos hb1] at hb
      obtain ⟨hv, hhv, hall⟩ := ih _ _ _ hb
      refine ⟨hv, hhv, fun h lat t => ?_⟩
      obtain ⟨t1, e⟩ := hall (M.rdCOUT s).1 lat (t ++ [Event.rCOUT ((M.rdCOUT s).1 % 2)])
      refine ⟨t1, ?_⟩
      rw [pollCOUT]
      have hr : rdCOUT (lagged M) ⟨⟨s, h, 0, lat⟩, t⟩ =
          ((M.rdCOUT s).1 % 2, ⟨⟨(M.rdCOUT s).2, (M.rdCOUT s).1, 0, lat⟩,
            t ++ [Event.rCOUT ((M.rdCOUT s).1 % 2)]⟩) := by
        simp [rdCOUT, lagged]
      rw [hr, if_pos hne]
      exact e
    · have hb1 : ¬ (rdCOUT M ⟨s, t0⟩).1 ≠ v := hne
      rw [if_neg hb1] at hb
      injection hb with _ hw
      subst hw
      refine ⟨(M.rdCOUT s).1, not_not.1 hne, fun h lat t =>
        ⟨t ++ [Event.rCOUT ((M.rdCOUT s).1 % 2)], ?_⟩⟩
      rw [pollCOUT]
      have hr : rdCOUT (lagged M) ⟨⟨s, h, 0, lat⟩, t⟩ =
          ((M.rdCOUT s).1 % 2, ⟨⟨(M.rdCOUT s).2, (M.rdCOUT s).1, 0, lat⟩,
            t ++ [Event.rCOUT ((M.rdCOUT s).1 % 2)]⟩) := by
        simp [rdCOUT, lagged]
      rw [hr, if_neg hne]
      rfl

/-- One phase behind the latency stage: the write to CIN and the poll loop end in
the coprocessor state of the undelayed phase, whatever the latency. -/
theorem lag_sync {σ : Type} (M : Copro σ) (v : Nat) (n : Nat) (s : σ)
    (t0 : List Event) (w : World σ)
    (hb : pollCOUT M v n (wrCIN M v ⟨s, t0⟩) = .returned () w) :
    ∃ hv, hv % 2 = v ∧ ∀ (h : Nat) (lat : List Nat) (t : List Event) (m : Nat),
      h % 2 ≠ v → n + lat.headD 0 ≤ m →
      ∃ t1, pollCOUT (lagged M) v m (wrCIN (lagged M) v ⟨⟨s, h, 0, lat⟩, t⟩) =
        .returned () ⟨⟨w.env, hv, 0, lat.tail⟩, t1⟩ := by
  obtain ⟨hv, hhv, hall⟩ := lag_pass M v n _ _ w hb
  refine ⟨hv, hhv, fun h lat t m hne hm => ?_⟩
  have hw : wrCIN (lagged M) v ⟨⟨s, h, 0, lat⟩, t⟩ =
      ⟨⟨M.onCIN (v % 2) s, h, lat.headD 0, lat.tail⟩, t ++ [Event.wCIN (v % 2)]⟩ := by
    simp [wrCIN, lagged]
  obtain ⟨t1, e1⟩ := lag_stale M v (lat.headD 0) n (M.onCIN (v % 2) s) h lat.tail
    (t ++ [Event.wCIN (v % 2)]) hne
  obtain ⟨t2, e2⟩ := hall h lat.tail t1
  refine ⟨t2, ?_⟩
  rw [hw]
  apply pollCOUT_mono (lagged M) v (lat.headD 0 + n) m _ _ () _ (by omega)
  rw [e1]
  exact e2

theorem mymax_mono {σ : Type} (M : Copro σ) (n m a b r : Nat) (w w4 : World σ)
    (h : mymax M n a b w = .returned r w4) (hm : n ≤ m) :
    mymax M m a b w = .returned r w4 := by
  obtain ⟨w1, w2, w3, h1, h2, h3, h4, hr⟩ := (mymax_returned_iff M n a b r w w4).1 h
  exact (mymax_returned_iff M m a b r w w4).2
    ⟨w1, w2, w3, pollCOUT_mono M 1 n m _ _ _ h1 hm, pollCOUT_mono M 0 n m _ _ _ h2 hm,
      pollCOUT_mono M 1 n m _ _ _ h3 hm, pollCOUT_mono M 0 n m _ _ _ h4 hm, hr⟩

/-- A call behind the latency stage returns what the undelayed call returns and
leaves the coprocessor in the same state, whatever the latencies. -/
theorem lag_call {σ : Type} (M : Copro σ) (n a b r : Nat) (s : σ) (t0 : List Event)
    (w : World σ) (hb : mymax M n a b ⟨s, t0⟩ = .returned r w) :
    ∃ hv, ∀ (h : Nat) (lat : List Nat) (t : List Event) (m : Nat),
      h % 2 = 0 → n + maxLat lat ≤ m →
      ∃ t1, mymax (lagged M) m a b ⟨⟨s, h, 0, lat⟩, t⟩ =
        .returned r ⟨⟨w.env, hv, 0, lat.tail.tail.tail.tail⟩, t1⟩ := by
  obtain ⟨w1, w2, w3, h1, h2, h3, h4, hr⟩ := (mymax_returned_iff M n a b r _ w).1 hb
  obtain ⟨v1, hv1, p1⟩ := lag_sync M 1 n (M.onDIN (a % 65536) s) _ w1 h1
  obtain ⟨v2, hv2, p2⟩ := lag_sync M 0 n (M.onDIN (b % 65536) w1.env) _ w2 h2
  obtain ⟨v3, hv3, p3⟩ := lag_sync M 1 n w2.env w2.trace w3 h3
  obtain ⟨v4, hv4, p4⟩ := lag_sync M 0 n (M.rdDOUT w3.env).2 _ w h4
  refine ⟨v4, fun h lat t m hh hm => ?_⟩
  have c1 := headD_le_maxLat lat
  have d1 := maxLat_tail_le lat
  have c2 := headD_le_maxLat lat.tail
  have d2 := maxLat_tail_le lat.tail
  have c3 := headD_le_maxLat lat.tail.tail
  have d3 := maxLat_tail_le lat.tail.tail
  have c4 := headD_le_maxLat lat.tail.tail.tail
  obtain ⟨t1, e1⟩ := p1 h lat (t ++ [Event.wDIN (a % 65536)]) m (by omega) (by omega)
  obtain ⟨t2, e2⟩ := p2 v1 lat.tail (t1 ++ [Event.wDIN (b % 65536)]) m (by omega) (by omega)
  obtain ⟨t3, e3⟩ := p3 v2 lat.tail.tail t2 m (by omega) (by omega)
  obtain ⟨t4, e4⟩ := p4 v3 lat.tail.tail.tail
    (t3 ++ [Event.rDOUT ((M.rdDOUT w3.env).1 % 65536)]) m (by omega) (by omega)
  exact ⟨t4, (mymax_returned_iff (lagged M) m a b r _ _).2 ⟨_, _, _, e1, e2, e3, e4, hr⟩⟩

/-! ## Results against the handshake-following coprocessor -/

/-- C1: for operands a, b within the 16-bit register width and the
handshake-following coprocessor that presents max(A, B), entered in its idle state
with any latencies, mymax(a, b) returns max(a, b) once it is observed long enough;
in particular mymax(5, 64) = 64, mymax(100, 64) = 100 and mymax(64, 64) = 64. -/
theorem mymax_returns_max (s : HS) (t : List Event) (a b : Nat) (hs : s.isIdle)
    (ha : a < 65536) (hb : b < 65536) :
    ∃ N, ∀ n, N ≤ n →
      (∃ w1, mymax maxCopro n a b ⟨s, t⟩ = .returned (max a b) w1) ∧
      (∃ w1, mymax maxCopro n 5 64 ⟨s, t⟩ = .returned 64 w1) ∧
      (∃ w1, mymax maxCopro n 100 64 ⟨s, t⟩ = .returned 100 w1) ∧
      (∃ w1, mymax maxCopro n 64 64 ⟨s, t⟩ = .returned 64 w1) := by
  refine ⟨maxLat s.lat + 1, fun n hn => ⟨?_, ?_, ?_, ?_⟩⟩
  · have h := hs_call (fun x y => max x y) s t a b n hs (by omega)
    rw [Nat.mod_eq_of_lt ha, Nat.mod_eq_of_lt hb,
      Nat.mod_eq_of_lt (show max a b < 65536 from max_lt ha hb)] at h
    exact ⟨_, h⟩
  · exact ⟨_, hs_call (fun x y => max x y) s t 5 64 n hs (by omega)⟩
  · exact ⟨_, hs_call (fun x y => max x y) s t 100 64 n hs (by omega)⟩
  · exact ⟨_, hs_call (fun x y => max x y) s t 64 64 n hs (by omega)⟩

/-- C1 at a concrete input: reset state, latencies 3, 0, 2, 1, operands 5 and 64. -/
theorem mymax_returns_max_witness :
    (hsReset [3, 0, 2, 1]).isIdle ∧ 5 < 65536 ∧ 64 < 65536 ∧
    ∃ N, ∀ n, N ≤ n →
      (∃ w1, mymax maxCopro n 5 64 ⟨hsReset [3, 0, 2, 1], []⟩ = .returned (max 5 64) w1) ∧
      (∃ w1, mymax maxCopro n 5 64 ⟨hsReset [3, 0, 2, 1], []⟩ = .returned 64 w1) ∧
      (∃ w1, mymax maxCopro n 100 64 ⟨hsReset [3, 0, 2, 1], []⟩ = .returned 100 w1) ∧
      (∃ w1, mymax maxCopro n 64 64 ⟨hsReset [3, 0, 2, 1], []⟩ = .returned 64 w1) :=
  ⟨by decide, by decide, by decide,
    mymax_returns_max (hsReset [3, 0, 2, 1]) [] 5 64 (by decide) (by decide) (by decide)⟩

/-- C6: with the handshake-following coprocessor configured to echo the first
operand, entered in its idle state with any latencies, mymax(a, b) returns exactly
a for every a representable in the 16-bit register and every b. -/
theorem echo_round_trip (s : HS) (t : List Event) (a b : Nat) (hs : s.isIdle)
    (ha : a < 65536) :
    ∃ N, ∀ n, N ≤ n → ∃ w1, mymax echoCopro n a b ⟨s, t⟩ = .returned a w1 := by
  refine ⟨maxLat s.lat + 1, fun n hn => ?_⟩
  have h := hs_call (fun x _ => x) s t a b n hs (by omega)
  simp only [Nat.mod_mod, Nat.mod_eq_of_lt ha] at h
  exact ⟨_, h⟩

/-- C6 at a concrete input: reset state, latencies 1, 4, 0, 2, operands 40000 and
70000 (the second one wider than the register). -/
theorem echo_round_trip_witness :
    (hsReset [1, 4, 0, 2]).isIdle ∧ 40000 < 65536 ∧
    ∃ N, ∀ n, N ≤ n →
      ∃ w1, mymax echoCopro n 40000 70000 ⟨hsReset [1, 4, 0, 2], []⟩ = .returned 40000 w1 :=
  ⟨by decide, by decide,
    echo_round_trip (hsReset [1, 4, 0, 2]) [] 40000 70000 (by decide) (by decide)⟩

/-- C7: two consecutive calls are two independent transactions.  From the idle
state of a handshake-following coprocessor computing a 16-bit function f, with any
latencies, mymax(a1, b1) returns f(a1, b1) and the call mymax(a2, b2) that follows
it returns f(a2, b2), whatever a1 and b1 were. -/
theorem consecutive_calls (f : Nat → Nat → Nat) (hf : ∀ x y, f x y < 65536) (s : HS)
    (t : List Event) (a1 b1 a2 b2 : Nat) (hs : s.isIdle) (ha1 : a1 < 65536)
    (hb1 : b1 < 65536) (ha2 : a2 < 65536) (hb2 : b2 < 65536) :
    ∃ N, ∀ n, N ≤ n → ∃ w1 w2,
      mymax (handshake f) n a1 b1 ⟨s, t⟩ = .returned (f a1 b1) w1 ∧
      mymax (handshake f) n a2 b2 w1 = .returned (f a2 b2) w2 := by
  refine ⟨maxLat s.lat + 1, fun n hn => ?_⟩
  have h1 := hs_call16 f s t a1 b1 n hs (by omega) ha1 hb1 (hf a1 b1)
  have m2 : maxLat s.lat.tail.tail.tail.tail < n := by
    have := maxLat_tail_le s.lat
    have := maxLat_tail_le s.lat.tail
    have := maxLat_tail_le s.lat.tail.tail
    have := maxLat_tail_le s.lat.tail.tail.tail
    omega
  have h2 := hs_call16 f
    { phase := .idle, din := b1, cin := 0, dout := f a1 b1, cout := 0,
      opA := a1, opB := b1, wait := 0, lat := s.lat.tail.tail.tail.tail }
    (t ++ callTrace a1 b1 (f a1 b1)
      (s.lat.headD 0) (s.lat.tail.headD 0) (s.lat.tail.tail.headD 0)
      (s.lat.tail.tail.tail.headD 0)) a2 b2 n ⟨rfl, rfl, rfl, rfl⟩ m2 ha2 hb2 (hf a2 b2)
  exact ⟨_, _, h1, h2⟩

/-- C7 at a concrete input: f is addition modulo 2^16, reset state, eight
latencies, first call on 7 and 9, second call on 65535 and 3. -/
theorem consecutive_calls_witness :
    (∀ x y, (x + y) % 65536 < 65536) ∧ (hsReset [2, 0, 1, 3, 0, 5, 1, 1]).isIdle ∧
    7 < 65536 ∧ 9 < 65536 ∧ 65535 < 65536 ∧ 3 < 65536 ∧
    ∃ N, ∀ n, N ≤ n → ∃ w1 w2,
      mymax (handshake (fun x y => (x + y) % 65536)) n 7 9
        ⟨hsReset [2, 0, 1, 3, 0, 5, 1, 1], []⟩ = .returned ((7 + 9) % 65536) w1 ∧
      mymax (handshake (fun x y => (x + y) % 65536)) n 65535 3 w1 =
        .returned ((65535 + 3) % 65536) w2 :=
  ⟨fun x y => Nat.mod_lt _ (by decide), by decide, by decide, by decide, by decide, by decide,
    consecutive_calls (fun x y => (x + y) % 65536) (fun x y => Nat.mod_lt _ (by decide))
      (hsReset [2, 0, 1, 3, 0, 5, 1, 1]) [] 7 9 65535 3 (by decide) (by decide) (by decide)
      (by decide) (by decide)⟩

/-! ## Results for every coprocessor -/

/-- C2: in every completed call mymax(a, b) the values written to CIN are exactly
1, 0, 1, 0; the writes of the call are, in order, a to DIN, CIN := 1, b to DIN,
CIN := 0, CIN := 1, CIN := 0, so a is written before the first CIN write, b
between the first and the second, and DIN at no other point. -/
theorem control_sequence {σ : Type} (M : Copro σ) (n a b r : Nat) (w w1 : World σ)
    (h : mymax M n a b w = .returned r w1) (ha : a < 65536) (hb : b < 65536) :
    ∃ evs, w1.trace = w.trace ++ evs ∧ cinWrites evs = [1, 0, 1, 0] ∧
      busWrites evs = [Event.wDIN a, Event.wCIN 1, Event.wDIN b, Event.wCIN 0,
        Event.wCIN 1, Event.wCIN 0] := by
  obtain ⟨k1, k2, k3, k4, ht⟩ := mymax_returned_trace M n a b r w w1 h
  rw [Nat.mod_eq_of_lt ha, Nat.mod_eq_of_lt hb] at ht
  exact ⟨_, ht, cinWrites_callTrace _ _ _ _ _ _ _, busWrites_callTrace _ _ _ _ _ _ _⟩

/-- C2 at a concrete input: the max coprocessor after reset with latencies 2, 0,
1, 3, observed for 4 polls per loop, operands 5 and 64. -/
theorem control_sequence_witness :
    mymax maxCopro 4 5 64 ⟨hsReset [2, 0, 1, 3], []⟩ =
      .returned 64 (mymax maxCopro 4 5 64 ⟨hsReset [2, 0, 1, 3], []⟩).world ∧
    5 < 65536 ∧ 64 < 65536 ∧
    ∃ evs, (mymax maxCopro 4 5 64 ⟨hsReset [2, 0, 1, 3], []⟩).world.trace = [] ++ evs ∧
      cinWrites evs = [1, 0, 1, 0] ∧
      busWrites evs = [Event.wDIN 5, Event.wCIN 1, Event.wDIN 64, Event.wCIN 0,
        Event.wCIN 1, Event.wCIN 0] :=
  ⟨by decide, by decide, by decide,
    control_sequence maxCopro 4 5 64 64 ⟨hsReset [2, 0, 1, 3], []⟩ _ (by decide)
      (by decide) (by decide)⟩

/-- C3: whatever the operands and the coprocessor, when mymax(a, b) returns the
CIN register holds 0 and the last value seen on COUT is 0: the channel is in the
idle state again. -/
theorem idle_on_return {σ : Type} (M : Copro σ) (n a b r : Nat) (w w1 : World σ)
    (h : mymax M n a b w = .returned r w1) : w1.cin = 0 ∧ w1.cout = 0 ∧ Idle w1 := by
  obtain ⟨k1, k2, k3, k4, ht⟩ := mymax_returned_trace M n a b r w w1 h
  have hc : w1.cin = 0 := by
    simp only [World.cin, ht, cinAfter_append, cinAfter_callTrace]
  have ho : w1.cout = 0 := by
    simp only [World.cout, ht, coutAfter_append, coutAfter_callTrace]
  exact ⟨hc, ho, hc, ho⟩

/-- C3 at a concrete input: the echo coprocessor after reset with latencies 0, 1,
0, 2, operands 9 and 4. -/
theorem idle_on_return_witness :
    mymax echoCopro 3 9 4 ⟨hsReset [0, 1, 0, 2], []⟩ =
      .returned 9 (mymax echoCopro 3 9 4 ⟨hsReset [0, 1, 0, 2], []⟩).world ∧
    (mymax echoCopro 3 9 4 ⟨hsReset [0, 1, 0, 2], []⟩).world.cin = 0 ∧
    (mymax echoCopro 3 9 4 ⟨hsReset [0, 1, 0, 2], []⟩).world.cout = 0 ∧
    Idle (mymax echoCopro 3 9 4 ⟨hsReset [0, 1, 0, 2], []⟩).world :=
  ⟨by decide, idle_on_return echoCopro 3 9 4 9 ⟨hsReset [0, 1, 0, 2], []⟩ _ (by decide)⟩

/-- C8: handshake ordering.  For a call entered in the idle state (CIN = 0 and
COUT = 0), observed for any length and against any coprocessor: the call starts
with its two writes, before any read of COUT; at every write of a value v to CIN
the value last seen or held on COUT equals the value CIN holds, and v is the
complement of it; and at every point of the call CIN has toggled as often as COUT
or once more. -/
theorem handshake_ordering {σ : Type} (M : Copro σ) (n a b : Nat) (w : World σ)
    (hidle : Idle w) :
    ∃ evs, (mymax M n a b w).world.trace = w.trace ++ evs ∧
      (∃ rest, evs = Event.wDIN (a % 65536) :: Event.wCIN 1 :: rest) ∧
      (∀ p v q, evs = p ++ Event.wCIN v :: q →
        coutAfter w.cout p = cinAfter w.cin p ∧ v = 1 - cinAfter w.cin p) ∧
      (∀ p q, evs = p ++ q →
        toggles w.cout (coutReads p) ≤ toggles w.cin (cinWrites p) ∧
        toggles w.cin (cinWrites p) ≤ toggles w.cout (coutReads p) + 1) := by
  obtain ⟨evs, ht, ho, hs, hfirst⟩ := mymax_trace_ok M n a b w
  rw [hidle.1, hidle.2]
  refine ⟨evs, ht, hfirst, ?_, ?_⟩
  · intro p v q he
    rw [he] at ho
    exact ordered_split p 0 0 v q ho
  · intro p q he
    rw [he] at hs
    have := inStep_split p 0 0 0 0 q hs
    omega

/-- C8 at a concrete input: the max coprocessor after reset with latencies 1, 1,
1, 1, observed for 2 polls per loop, operands 5 and 64. -/
theorem handshake_ordering_witness :
    Idle (⟨hsReset [1, 1, 1, 1], []⟩ : World HS) ∧
    ∃ evs, (mymax maxCopro 2 5 64 ⟨hsReset [1, 1, 1, 1], []⟩).world.trace = [] ++ evs ∧
      (∃ rest, evs = Event.wDIN (5 % 65536) :: Event.wCIN 1 :: rest) ∧
      (∀ p v q, evs = p ++ Event.wCIN v :: q →
        coutAfter 0 p = cinAfter 0 p ∧ v = 1 - cinAfter 0 p) ∧
      (∀ p q, evs = p ++ q →
        toggles 0 (coutReads p) ≤ toggles 0 (cinWrites p) ∧
        toggles 0 (cinWrites p) ≤ toggles 0 (coutReads p) + 1) :=
  ⟨by decide, handshake_ordering maxCopro 2 5 64 ⟨hsReset [1, 1, 1, 1], []⟩ (by decide)⟩

/-- C4: when the call reaches a poll loop in which COUT never takes the awaited
value, mymax(a, b) never returns: for every bound n the call, observed for n polls
per loop, has made at least n bus accesses and is still inside a poll loop; it has
returned no value, and the program has no timeout or error value to produce. -/
theorem never_returns {σ : Type} (M : Copro σ) (a b : Nat) (w : World σ)
    (h : ∃ i s, PollStart M a b w i s ∧ ∀ k, coutAt M s k ≠ awaited i) :
    ∀ n, (∃ w1, mymax M n a b w = .spinning w1 ∧ w.trace.length + n ≤ w1.trace.length) ∧
      ∀ r w1, mymax M n a b w ≠ .returned r w1 := by
  intro n
  suffices hsp : ∃ w1, mymax M n a b w = .spinning w1 by
    obtain ⟨w1, e⟩ := hsp
    exact ⟨⟨w1, e, mymax_spinning_steps M n a b w w1 e⟩,
      fun r w2 h2 => by rw [e] at h2; cases h2⟩
  obtain ⟨i, s, hp, hs⟩ := h
  rcases i with _ | _ | _ | _ | i
  · have hp0 : s = (wrCIN M 1 (wrDIN M a w)).env := hp
    subst hp0
    obtain ⟨x, e⟩ := pollCOUT_silent M 1 n (wrCIN M 1 (wrDIN M a w)) hs
    exact ⟨x, mymax_spinning1 M n a b w x e⟩
  · obtain ⟨m, w1, e1, rfl⟩ := hp
    rcases pollCOUT_cases M 1 n m _ w1 e1 with ⟨x, hx⟩ | g1
    · exact ⟨x, mymax_spinning1 M n a b w x hx⟩
    · obtain ⟨x, e⟩ := pollCOUT_silent M 0 n (wrCIN M 0 (wrDIN M b w1)) hs
      exact ⟨x, mymax_spinning2 M n a b w w1 x g1 e⟩
  · obtain ⟨m, w1, w2, e1, e2, rfl⟩ := hp
    rcases pollCOUT_cases M 1 n m _ w1 e1 with ⟨x, hx⟩ | g1
    · exact ⟨x, mymax_spinning1 M n a b w x hx⟩
    · rcases pollCOUT_cases M 0 n m _ w2 e2 with ⟨x, hx⟩ | g2
      · exact ⟨x, mymax_spinning2 M n a b w w1 x g1 hx⟩
      · obtain ⟨x, e⟩ := pollCOUT_silent M 1 n (wrCIN M 1 w2) hs
        exact ⟨x, mymax_spinning3 M n a b w w1 w2 x g1 g2 e⟩
  · obtain ⟨m, w1, w2, w3, e1, e2, e3, rfl⟩ := hp
    rcases pollCOUT_cases M 1 n m _ w1 e1 with ⟨x, hx⟩ | g1
    · exact ⟨x, mymax_spinning1 M n a b w x hx⟩
    · rcases pollCOUT_cases M 0 n m _ w2 e2 with ⟨x, hx⟩ | g2
      · exact ⟨x, mymax_spinning2 M n a b w w1 x g1 hx⟩
      · rcases pollCOUT_cases M 1 n m _ w3 e3 with ⟨x, hx⟩ | g3
        · exact ⟨x, mymax_spinning3 M n a b w w1 w2 x g1 g2 hx⟩
        · obtain ⟨x, e⟩ := pollCOUT_silent M 0 n (wrCIN M 0 (rdDOUT M w3).2) hs
          exact ⟨x, mymax_spinning4 M n a b w w1 w2 w3 x g1 g2 g3 e⟩
  · exact absurd hp (by simp [PollStart])

/-- C4 at a concrete input: the coprocessor that never responds, operands 5 and
64; the first poll loop never sees COUT = 1. -/
theorem never_returns_witness :
    (∃ i s, PollStart deadCopro 5 64 ⟨(), []⟩ i s ∧
      ∀ k, coutAt deadCopro s k ≠ awaited i) ∧
    ∀ n, (∃ w1, mymax deadCopro n 5 64 ⟨(), []⟩ = .spinning w1 ∧
        ([] : List Event).length + n ≤ w1.trace.length) ∧
      ∀ r w1, mymax deadCopro n 5 64 ⟨(), []⟩ ≠ .returned r w1 :=
  ⟨⟨0, (), rfl, dead_silent⟩,
    never_returns deadCopro 5 64 ⟨(), []⟩ ⟨0, (), rfl, dead_silent⟩⟩

/-- A call in which every poll loop it reaches is acknowledged after finitely many
polls returns, with one and the same result, once it is observed long enough. -/
theorem mymax_returns_of_acked {σ : Type} (M : Copro σ) (a b : Nat) (w : World σ)
    (hack : ∀ i s, PollStart M a b w i s → ∃ k, coutAt M s k = awaited i) :
    ∃ N r w4, ∀ n, N ≤ n → mymax M n a b w = .returned r w4 := by
  obtain ⟨k1, hk1⟩ := hack 0 (wrCIN M 1 (wrDIN M a w)).env rfl
  obtain ⟨w1, e1⟩ := pollCOUT_acked M 1 k1 _ hk1 (k1 + 1) (by omega)
  obtain ⟨k2, hk2⟩ := hack 1 (wrCIN M 0 (wrDIN M b w1)).env ⟨k1 + 1, w1, e1, rfl⟩
  obtain ⟨w2, e2⟩ := pollCOUT_acked M 0 k2 _ hk2 (k2 + 1) (by omega)
  have f1 : ∀ n, k1 + 1 ≤ n → SYNC1 M n (wrDIN M a w) = .returned () w1 :=
    fun n hn => pollCOUT_mono M 1 _ n _ _ _ e1 hn
  have f2 : ∀ n, k2 + 1 ≤ n → SYNC0 M n (wrDIN M b w1) = .returned () w2 :=
    fun n hn => pollCOUT_mono M 0 _ n _ _ _ e2 hn
  obtain ⟨k3, hk3⟩ := hack 2 (wrCIN M 1 w2).env
    ⟨k1 + 1 + (k2 + 1), w1, w2, f1 _ (by omega), f2 _ (by omega), rfl⟩
  obtain ⟨w3, e3⟩ := pollCOUT_acked M 1 k3 _ hk3 (k3 + 1) (by omega)
  have f3 : ∀ n, k3 + 1 ≤ n → SYNC1 M n w2 = .returned () w3 :=
    fun n hn => pollCOUT_mono M 1 _ n _ _ _ e3 hn
  obtain ⟨k4, hk4⟩ := hack 3 (wrCIN M 0 (rdDOUT M w3).2).env
    ⟨k1 + 1 + (k2 + 1) + (k3 + 1), w1, w2, w3, f1 _ (by omega), f2 _ (by omega),
      f3 _ (by omega), rfl⟩
  obtain ⟨w4, e4⟩ := pollCOUT_acked M 0 k4 _ hk4 (k4 + 1) (by omega)
  have f4 : ∀ n, k4 + 1 ≤ n → SYNC0 M n (rdDOUT M w3).2 = .returned () w4 :=
    fun n hn => pollCOUT_mono M 0 _ n _ _ _ e4 hn
  refine ⟨k1 + 1 + (k2 + 1) + (k3 + 1) + (k4 + 1), (rdDOUT M w3).1, w4, fun n hn => ?_⟩
  exact (mymax_returned_iff M n a b _ w w4).2
    ⟨w1, w2, w3, f1 n (by omega), f2 n (by omega), f3 n (by omega), f4 n (by omega), rfl⟩

/-- The CIN register and the last value seen on COUT when a call has returned. -/
theorem mymax_returned_regs {σ : Type} (M : Copro σ) (n a b r : Nat) (w w4 : World σ)
    (h : mymax M n a b w = .returned r w4) : w4.cin = 0 ∧ w4.cout = 0 := by
  obtain ⟨k1, k2, k3, k4, ht⟩ := mymax_returned_trace M n a b r w w4 h
  constructor
  · simp only [World.cin, ht, cinAfter_append, cinAfter_callTrace]
  · simp only [World.cout, ht, coutAfter_append, coutAfter_callTrace]

/-- C5: latency tolerance.  (1) Against any coprocessor that drives COUT to the
awaited value after finitely many polls in each poll loop the call reaches,
mymax(a, b) returns for all operands.  (2) Put any coprocessor under which the
call returns behind a latency stage, entered with COUT at 0: for every choice of
the four latencies the call returns the same value and leaves the same
coprocessor state, CIN and COUT.  (3) The same holds for the handshake-following
coprocessor computing any f: value and DIN, CIN, DOUT, COUT do not depend on the
four latencies. -/
theorem latency_tolerance :
    (∀ (σ : Type) (M : Copro σ) (a b : Nat) (w : World σ),
      (∀ i s, PollStart M a b w i s → ∃ k, coutAt M s k = awaited i) →
      ∃ N r w4, ∀ n, N ≤ n → mymax M n a b w = .returned r w4) ∧
    (∀ (σ : Type) (M : Copro σ) (a b : Nat) (s : σ) (t : List Event) (w : World σ)
      (k r h l1 l2 l3 l4 m1 m2 m3 m4 : Nat), h % 2 = 0 →
      mymax M k a b ⟨s, t⟩ = .returned r w →
      ∃ N x y, x.env = y.env ∧ x.env.base = w.env ∧ x.cin = y.cin ∧ x.cout = y.cout ∧
        ∀ n, N ≤ n →
          mymax (lagged M) n a b ⟨⟨s, h, 0, [l1, l2, l3, l4]⟩, t⟩ = .returned r x ∧
          mymax (lagged M) n a b ⟨⟨s, h, 0, [m1, m2, m3, m4]⟩, t⟩ = .returned r y) ∧
    (∀ (f : Nat → Nat → Nat) (s : HS) (t : List Event) (a b : Nat)
      (l1 l2 l3 l4 m1 m2 m3 m4 : Nat), s.isIdle →
      ∃ N r w1 w2, w1.env.regs = w2.env.regs ∧ ∀ n, N ≤ n →
        mymax (handshake f) n a b ⟨{ s with lat := [l1, l2, l3, l4] }, t⟩ = .returned r w1 ∧
        mymax (handshake f) n a b ⟨{ s with lat := [m1, m2, m3, m4] }, t⟩ =
          .returned r w2) := by
  refine ⟨fun σ M a b w hack => mymax_returns_of_acked M a b w hack, ?_, ?_⟩
  · intro σ M a b s t w k r h l1 l2 l3 l4 m1 m2 m3 m4 hh hb
    obtain ⟨hv, hall⟩ := lag_call M k a b r s t w hb
    obtain ⟨t1, e1⟩ := hall h [l1, l2, l3, l4] t
      (k + maxLat [l1, l2, l3, l4] + maxLat [m1, m2, m3, m4]) hh (by omega)
    obtain ⟨t2, e2⟩ := hall h [m1, m2, m3, m4] t
      (k + maxLat [l1, l2, l3, l4] + maxLat [m1, m2, m3, m4]) hh (by omega)
    have r1 := mymax_returned_regs _ _ _ _ _ _ _ e1
    have r2 := mymax_returned_regs _ _ _ _ _ _ _ e2
    exact ⟨k + maxLat [l1, l2, l3, l4] + maxLat [m1, m2, m3, m4],
      ⟨⟨w.env, hv, 0, []⟩, t1⟩, ⟨⟨w.env, hv, 0, []⟩, t2⟩, rfl, rfl,
      r1.1.trans r2.1.symm, r1.2.trans r2.2.symm,
      fun n hn => ⟨mymax_mono _ _ n _ _ _ _ _ e1 hn, mymax_mono _ _ n _ _ _ _ _ e2 hn⟩⟩
  · intro f s t a b l1 l2 l3 l4 m1 m2 m3 m4 hs
    refine ⟨maxLat [l1, l2, l3, l4] + maxLat [m1, m2, m3, m4] + 1, _, _, _, ?_,
      fun n hn =>
        ⟨hs_call f { s with lat := [l1, l2, l3, l4] } t a b n hs (by simp only; omega),
          hs_call f { s with lat := [m1, m2, m3, m4] } t a b n hs (by simp only; omega)⟩⟩
    rfl

/-- C5 at a concrete input: the max coprocessor after reset, operands 100 and 64:
with its own latencies 0, 3, 1, 2; without latency and behind a latency stage
with latencies 4, 0, 2, 1 against 0, 0, 7, 3; and with its own latencies 0, 3, 1,
2 against 5, 0, 0, 1. -/
theorem latency_tolerance_witness :
    (∀ i s, PollStart maxCopro 100 64 ⟨hsReset [0, 3, 1, 2], []⟩ i s →
      ∃ k, coutAt maxCopro s k = awaited i) ∧
    (∃ N r w4, ∀ n, N ≤ n →
      mymax maxCopro n 100 64 ⟨hsReset [0, 3, 1, 2], []⟩ = .returned r w4) ∧
    0 % 2 = 0 ∧
    mymax maxCopro 1 100 64 ⟨hsReset [], []⟩ =
      .returned 100 (mymax maxCopro 1 100 64 ⟨hsReset [], []⟩).world ∧
    (∃ N x y, x.env = y.env ∧
      x.env.base = (mymax maxCopro 1 100 64 ⟨hsReset [], []⟩).world.env ∧
      x.cin = y.cin ∧ x.cout = y.cout ∧
      ∀ n, N ≤ n →
        mymax (lagged maxCopro) n 100 64 ⟨⟨hsReset [], 0, 0, [4, 0, 2, 1]⟩, []⟩ =
          .returned 100 x ∧
        mymax (lagged maxCopro) n 100 64 ⟨⟨hsReset [], 0, 0, [0, 0, 7, 3]⟩, []⟩ =
          .returned 100 y) ∧
    (hsReset []).isIdle ∧
    (∃ N r w1 w2, w1.env.regs = w2.env.regs ∧ ∀ n, N ≤ n →
      mymax (handshake (fun x y => max x y)) n 100 64
        ⟨{ hsReset [] with lat := [0, 3, 1, 2] }, []⟩ = .returned r w1 ∧
      mymax (handshake (fun x y => max x y)) n 100 64
        ⟨{ hsReset [] with lat := [5, 0, 0, 1] }, []⟩ = .returned r w2) :=
  have hack : ∀ i s, PollStart maxCopro 100 64 ⟨hsReset [0, 3, 1, 2], []⟩ i s →
      ∃ k, coutAt maxCopro s k = awaited i := fun i s h => by
    obtain ⟨s0, rfl⟩ := pollStart_form _ _ _ _ _ _ h
    exact hs_responsive _ _ (awaited_lt i) s0
  have hret : mymax maxCopro 1 100 64 ⟨hsReset [], []⟩ =
      .returned 100 (mymax maxCopro 1 100 64 ⟨hsReset [], []⟩).world := by decide
  ⟨hack, latency_tolerance.1 HS maxCopro 100 64 ⟨hsReset [0, 3, 1, 2], []⟩ hack, by decide,
    hret,
    latency_tolerance.2.1 HS maxCopro 100 64 (hsReset []) [] _ 1 100 0 4 0 2 1 0 0 7 3
      (by decide) hret,
    by decide,
    latency_tolerance.2.2 (fun x y => max x y) (hsReset []) [] 100 64 0 3 1 2 5 0 0 1
      (by decide)⟩

/-- C9: in every completed call DOUT is read exactly once; the read comes right
after COUT has been seen equal to 1 following the second write CIN := 1, and
right before the final write CIN := 0; the value mymax returns is the value DOUT
holds in the coprocessor state of that read, whatever DOUT holds in any other
state. -/
theorem dout_read_once {σ : Type} (M : Copro σ) (n a b r : Nat) (w w4 : World σ)
    (h : mymax M n a b w = .returned r w4) :
    (∃ pre post,
      w4.trace = w.trace ++ (pre ++ [Event.rCOUT 1, Event.rDOUT r, Event.wCIN 0] ++ post) ∧
      cinWrites pre = [1, 0, 1] ∧ doutReads pre = [] ∧
      cinWrites post = [] ∧ doutReads post = []) ∧
    (∃ evs, w4.trace = w.trace ++ evs ∧ doutReads evs = [r]) ∧
    (∃ s, (M.rdDOUT s).1 % 65536 = r ∧
      ∀ d : σ → Nat, ∃ x, mymax (withDOUT M d) n a b w = .returned (d s % 65536) x) := by
  obtain ⟨k1, k2, k3, k4, ht⟩ := mymax_returned_trace M n a b r w w4 h
  refine ⟨⟨[Event.wDIN (a % 65536), Event.wCIN 1] ++ List.replicate k1 (Event.rCOUT 0) ++
      [Event.rCOUT 1, Event.wDIN (b % 65536), Event.wCIN 0] ++
      List.replicate k2 (Event.rCOUT 1) ++ [Event.rCOUT 0, Event.wCIN 1] ++
      List.replicate k3 (Event.rCOUT 0),
      List.replicate k4 (Event.rCOUT 1) ++ [Event.rCOUT 0], ?_, ?_, ?_, ?_, ?_⟩,
    ⟨_, ht, doutReads_callTrace _ _ _ _ _ _ _⟩, ?_⟩
  · rw [ht]; simp [callTrace]
  · simp [cinWrites_append, cinWrites_polls]; simp [cinWrites]
  · simp [doutReads_append, doutReads_polls]; simp [doutReads]
  · simp [cinWrites_append, cinWrites_polls]; simp [cinWrites]
  · simp [doutReads_append, doutReads_polls]; simp [doutReads]
  · obtain ⟨w1, w2, w3, h1, h2, h3, h4, hr⟩ := (mymax_returned_iff M n a b r w w4).1 h
    refine ⟨w3.env, hr.symm, fun d => ?_⟩
    have g1 : SYNC1 (withDOUT M d) n (wrDIN (withDOUT M d) a w) = .returned () w1 :=
      (pollCOUT_withDOUT M d 1 n _).trans h1
    have g2 : SYNC0 (withDOUT M d) n (wrDIN (withDOUT M d) b w1) = .returned () w2 :=
      (pollCOUT_withDOUT M d 0 n _).trans h2
    have g3 : SYNC1 (withDOUT M d) n w2 = .returned () w3 :=
      (pollCOUT_withDOUT M d 1 n _).trans h3
    obtain ⟨x, g4, -⟩ := pollCOUT_env M 0 n (wrCIN M 0 (rdDOUT M w3).2)
      (wrCIN M 0 (rdDOUT (withDOUT M d) w3).2) w4 () rfl h4
    have g4x : SYNC0 (withDOUT M d) n (rdDOUT (withDOUT M d) w3).2 = .returned () x :=
      (pollCOUT_withDOUT M d 0 n _).trans g4
    exact ⟨x, (mymax_returned_iff (withDOUT M d) n a b _ w x).2
      ⟨w1, w2, w3, g1, g2, g3, g4x, rfl⟩⟩

/-- C9 at a concrete input: the max coprocessor after reset with latencies 1, 0,
2, 0, observed for 3 polls per loop, operands 100 and 64. -/
theorem dout_read_once_witness :
    mymax maxCopro 3 100 64 ⟨hsReset [1, 0, 2, 0], []⟩ =
      .returned 100 (mymax maxCopro 3 100 64 ⟨hsReset [1, 0, 2, 0], []⟩).world ∧
    (∃ pre post,
      (mymax maxCopro 3 100 64 ⟨hsReset [1, 0, 2, 0], []⟩).world.trace =
        [] ++ (pre ++ [Event.rCOUT 1, Event.rDOUT 100, Event.wCIN 0] ++ post) ∧
      cinWrites pre = [1, 0, 1] ∧ doutReads pre = [] ∧
      cinWrites post = [] ∧ doutReads post = []) ∧
    (∃ evs, (mymax maxCopro 3 100 64 ⟨hsReset [1, 0, 2, 0], []⟩).world.trace = [] ++ evs ∧
      doutReads evs = [100]) ∧
    (∃ s, (maxCopro.rdDOUT s).1 % 65536 = 100 ∧
      ∀ d : HS → Nat, ∃ x, mymax (withDOUT maxCopro d) 3 100 64
        ⟨hsReset [1, 0, 2, 0], []⟩ = .returned (d s % 65536) x) :=
  ⟨by decide, dout_read_once maxCopro 3 100 64 100 ⟨hsReset [1, 0, 2, 0], []⟩ _ (by decide)⟩

/-- C10 as stated fails: in the completed call mymax(5, 64) against the max
coprocessor after reset, the values written to CIN are 1, 0, 1, 0, which is four
toggles and not two. -/
theorem two_toggles_refuted :
    mymax maxCopro 1 5 64 ⟨hsReset [], []⟩ =
      .returned 64 (mymax maxCopro 1 5 64 ⟨hsReset [], []⟩).world ∧
    cinWrites (mymax maxCopro 1 5 64 ⟨hsReset [], []⟩).world.trace = [1, 0, 1, 0] ∧
    cinWrites (mymax maxCopro 1 5 64 ⟨hsReset [], []⟩).world.trace ≠ [1, 0] ∧
    toggles 0 (cinWrites (mymax maxCopro 1 5 64 ⟨hsReset [], []⟩).world.trace) = 4 ∧
    toggles 0 (cinWrites (mymax maxCopro 1 5 64 ⟨hsReset [], []⟩).world.trace) ≠ 2 := by
  decide

/-- C10, amended: each completed call entered in the idle state advances the
value written to CIN through exactly four toggles, 1, 0, 1, 0, and returns it to
0, leaving the channel idle and ready for the next call. -/
theorem four_toggles {σ : Type} (M : Copro σ) (n a b r : Nat) (w w4 : World σ)
    (h : mymax M n a b w = .returned r w4) (hidle : Idle w) :
    ∃ evs, w4.trace = w.trace ++ evs ∧ cinWrites evs = [1, 0, 1, 0] ∧
      toggles w.cin (cinWrites evs) = 4 ∧ w4.cin = 0 ∧ Idle w4 := by
  obtain ⟨k1, k2, k3, k4, ht⟩ := mymax_returned_trace M n a b r w w4 h
  have hc : w4.cin = 0 := by
    simp only [World.cin, ht, cinAfter_append, cinAfter_callTrace]
  have ho : w4.cout = 0 := by
    simp only [World.cout, ht, coutAfter_append, coutAfter_callTrace]
  refine ⟨_, ht, cinWrites_callTrace _ _ _ _ _ _ _, ?_, hc, hc, ho⟩
  rw [cinWrites_callTrace, hidle.1]
  decide

/-- C10, amended, at a concrete input: the max coprocessor after reset with
latencies 0, 2, 0, 1, observed for 3 polls per loop, operands 5 and 64. -/
theorem four_toggles_witness :
    mymax maxCopro 3 5 64 ⟨hsReset [0, 2, 0, 1], []⟩ =
      .returned 64 (mymax maxCopro 3 5 64 ⟨hsReset [0, 2, 0, 1], []⟩).world ∧
    Idle (⟨hsReset [0, 2, 0, 1], []⟩ : World HS) ∧
    ∃ evs, (mymax maxCopro 3 5 64 ⟨hsReset [0, 2, 0, 1], []⟩).world.trace = [] ++ evs ∧
      cinWrites evs = [1, 0, 1, 0] ∧ toggles 0 (cinWrites evs) = 4 ∧
      (mymax maxCopro 3 5 64 ⟨hsReset [0, 2, 0, 1], []⟩).world.cin = 0 ∧
      Idle (mymax maxCopro 3 5 64 ⟨hsReset [0, 2, 0, 1], []⟩).world :=
  ⟨by decide, by decide,
    four_toggles maxCopro 3 5 64 64 ⟨hsReset [0, 2, 0, 1], []⟩ _ (by decide) (by decide)⟩

end Handshake
